import Mathlib

/-!
Verification of the core logic of the smart-nutrition-tracker repository
(`streamlit_nutrition_tracker.py`): the food-name normalizer, the basicness
classifier, the ingredient resolver, the profile validator, the BMR
calculator, and (modelled from the specification) the meal parser.

Python strings are embedded as `List Char`; Python numbers appearing in the
nutrition formulas are embedded as exact rationals (the computations the
claims mention are exact in binary floating point as well).
-/

/-- Python strings are modelled as lists of characters. -/
abbrev Str := List Char

/-- ASCII model of the regex word-character set `\w` (letters, digits,
underscore), used by the `\b` word boundaries in `normalize_food_input`. -/
def isWordChar (c : Char) : Bool := c.isAlphanum || c == '_'

/-- There is a `\b` word boundary between the end of a word-character run and
this string: true when the string is empty or starts with a non-word char. -/
def boundaryAfter : Str → Bool
  | [] => true
  | c :: _ => !isWordChar c

/-- `startsWith l v`: `v` is a leading segment of `l` (Python `str.startswith`). -/
def startsWith : Str → Str → Bool
  | _, [] => true
  | [], _ :: _ => false
  | c :: l, a :: v => a == c && startsWith l v

/-- `endsWith l v`: `v` is a trailing segment of `l` (Python `str.endswith`). -/
def endsWith (l v : Str) : Bool := startsWith l.reverse v.reverse

/-- `containsSub l v`: `v` occurs contiguously inside `l` (Python `v in l`). -/
def containsSub : Str → Str → Bool
  | l, v =>
    startsWith l v ||
      match l with
      | [] => false
      | _ :: t => containsSub t v

/-- Python `str.strip()`: remove leading and trailing whitespace. -/
def trim (s : Str) : Str :=
  ((s.dropWhile Char.isWhitespace).reverse.dropWhile Char.isWhitespace).reverse

/-- Python `str.lower()` (ASCII model). -/
def lowerStr (s : Str) : Str := s.map Char.toLower

/-- Scanner for `re.sub(r'\s+', ' ', text)`: every maximal run of whitespace
is replaced by a single space.  The flag records whether the previous
character was whitespace (i.e. whether we are inside a run already emitted). -/
def collapseGo : Bool → Str → Str
  | _, [] => []
  | prevWs, c :: t =>
    if c.isWhitespace then
      if prevWs then collapseGo true t else ' ' :: collapseGo true t
    else
      c :: collapseGo false t

/-- `re.sub(r'\s+', ' ', text)`. -/
def collapseWs (s : Str) : Str := collapseGo false s

/-- Scanner for `re.sub(r'\b' + word + r'\b', '', text)` with `word = a :: w`.
The `Nat` argument is a pending skip count (characters of an already matched
occurrence still to delete); the `Bool` records whether the previous original
character was a non-word character (so a `\b` can sit at this position). -/
def reSubGo (a : Char) (w : Str) : Nat → Bool → Str → Str
  | 0, _, [] => []
  | 0, b, c :: t =>
    if b && startsWith (c :: t) (a :: w) && boundaryAfter (t.drop w.length) then
      reSubGo a w w.length false t
    else
      c :: reSubGo a w 0 (!isWordChar c) t
  | _ + 1, _, [] => []
  | k + 1, _, _ :: t => reSubGo a w k false t

/-- `re.sub(r'\b' + word + r'\b', '', text)`: delete every word-boundary
delimited occurrence of `word`. -/
def reSubAll (word : Str) (s : Str) : Str :=
  match word with
  | [] => s
  | a :: w => reSubGo a w 0 true s

/-- The fixed cooking-method vocabulary of `normalize_food_input`. -/
def COOKING_WORDS : List Str :=
  ["grilled".data, "roasted".data, "baked".data, "steamed".data, "fried".data,
   "cooked".data, "boiled".data, "raw".data, "fresh".data]

/-- `normalize_food_input` (src lines 459-465): lowercase and strip, delete
every cooking-method word at word boundaries, collapse whitespace runs to a
single space, strip again. -/
def normalize_food_input (text : Str) : Str :=
  let t := trim (lowerStr text)
  let t := COOKING_WORDS.foldl (fun acc word => reSubAll word acc) t
  trim (collapseWs t)

example : normalize_food_input "  Grilled Chicken  Breast ".data = "chicken breast".data := by decide
example : normalize_food_input "freshly fried rice".data = "freshly rice".data := by decide
example : normalize_food_input "raw".data = [] := by decide

/-! ## Food records, basicness classifier, ingredient resolver -/

/-- One entry of the reference nutrition database.  `name_en` embeds
`food["names"]["en"]`; nutrition values are per 100 g. -/
structure FoodRecord where
  id : Nat
  name_en : Str
  group : Str
  calories : ℚ
  protein : ℚ
  carbs : ℚ
  fat : ℚ
deriving DecidableEq

/-- `food["names"]["en"].lower()`. -/
def foodNameLower (f : FoodRecord) : Str := lowerStr f.name_en

/-- The complex-indicator list of `is_basic_ingredient` (src line 469),
copied verbatim, duplicates included. -/
def complex_indicators : List Str :=
  [",".data, "(".data, ")".data, "with".data, "and".data, "or".data,
   "prepared".data, "canned".data, "packed".data, "packaged".data,
   "prepacked".data, "prepackaged".data, "mix".data, "mixed".data,
   "salad".data, "soup".data, "sauce".data, "gravy".data, "broth".data,
   "stock".data, "dish".data, "recipe".data, "meal".data, "dinner".data,
   "lunch".data, "breakfast".data, "cooked".data, "boiled".data,
   "fried".data, "grilled".data, "roasted".data, "baked".data,
   "steamed".data, "w/".data, "with".data, "au".data, "à la".data,
   "style".data, "flavored".data, "seasoned".data, "sandwich".data,
   "burger".data, "pizza".data, "pasta".data, "stew".data, "curry".data,
   "stir-fry".data, "casserole".data, "marinated".data, "breaded".data,
   "coated".data, "stuffed".data, "meal".data, "dish".data, "plate".data,
   "serving".data, "portion".data]

/-- The main-ingredient vocabulary of `is_basic_ingredient` (src line 473). -/
def main_ingredients : List Str :=
  ["chicken".data, "beef".data, "pork".data, "fish".data, "rice".data,
   "pasta".data, "potato".data, "vegetable".data, "fruit".data, "cheese".data]

/-- `is_basic_ingredient` (src lines 467-480): false as soon as any complex
indicator occurs as a substring of the lowercased name; otherwise false when
more than one distinct main-ingredient term occurs as a substring (the
Python loop increments `found_count` once per vocabulary term and returns
`False` when it exceeds 1); otherwise true. -/
def is_basic_ingredient (f : FoodRecord) : Bool :=
  let food_name := foodNameLower f
  if complex_indicators.any (fun ind => containsSub food_name ind) then false
  else decide (main_ingredients.countP (fun ing => containsSub food_name ing) ≤ 1)

/-- The category guard of the resolver loop: a record is skipped exactly when
`category_groups` is truthy (present and non-empty) and the record's group is
not among the labels (`if category_groups and food["group"] not in
category_groups: continue`). -/
def passCat (cat : Option (List Str)) (f : FoodRecord) : Bool :=
  match cat with
  | none => true
  | some gs => if gs = [] then true else decide (f.group ∈ gs)

/-- Exact-basic bucket membership test of `find_basic_ingredients`:
the normalized query equals the lowercased display name and the record is
basic (and the record passed the category guard). -/
def isExactBasic (n : Str) (cat : Option (List Str)) (f : FoodRecord) : Bool :=
  passCat cat f && decide (n = foodNameLower f) && is_basic_ingredient f

/-- Partial-basic bucket membership test of `find_basic_ingredients`: a basic
record (not an exact match) whose display name starts with `n ++ " "`, ends
with `" " ++ n`, or contains `" " ++ n ++ " "` after padding both sides. -/
def isPartBasic (n : Str) (cat : Option (List Str)) (f : FoodRecord) : Bool :=
  passCat cat f && is_basic_ingredient f && !decide (n = foodNameLower f) &&
    (startsWith (foodNameLower f) (n ++ [' ']) ||
     endsWith (foodNameLower f) (' ' :: n) ||
     containsSub (' ' :: (foodNameLower f ++ [' '])) (' ' :: (n ++ [' '])))

/-- Complex-fallback membership test: a record the loop can only ever place
in `complex_matches` — it passes the category guard, contains the query as a
raw substring, and satisfies neither basic bucket test. -/
def complexOnly (n : Str) (cat : Option (List Str)) (f : FoodRecord) : Bool :=
  passCat cat f && containsSub (foodNameLower f) n &&
    !isExactBasic n cat f && !isPartBasic n cat f

/-- The exact-basic bucket, in database order. -/
def exactBucket (db : List FoodRecord) (n : Str) (cat : Option (List Str)) : List FoodRecord :=
  db.filter (isExactBasic n cat)

/-- The partial-basic bucket, in database order. -/
def partBucket (db : List FoodRecord) (n : Str) (cat : Option (List Str)) : List FoodRecord :=
  db.filter (isPartBasic n cat)

/-- One iteration of the `for food in foods` loop of `find_basic_ingredients`
(src lines 489-502), acting on the accumulator
`(exact_basic_matches, partial_basic_matches, complex_matches)`. -/
def resolveStep (n : Str) (cat : Option (List Str))
    (acc : List FoodRecord × List FoodRecord × List FoodRecord) (f : FoodRecord) :
    List FoodRecord × List FoodRecord × List FoodRecord :=
  let (ex, par, cx) := acc
  if passCat cat f then
    let food_name := foodNameLower f
    let is_basic := is_basic_ingredient f
    if n = food_name ∧ is_basic then (ex ++ [f], par, cx)
    else if is_basic ∧ (startsWith food_name (n ++ [' ']) ∨ endsWith food_name (' ' :: n)) then
      (ex, par ++ [f], cx)
    else if is_basic ∧ containsSub (' ' :: (food_name ++ [' '])) (' ' :: (n ++ [' '])) then
      (ex, par ++ [f], cx)
    else if ex = [] ∧ par = [] ∧ containsSub food_name n then (ex, par, cx ++ [f])
    else (ex, par, cx)
  else (ex, par, cx)

/-- `find_basic_ingredients` (src lines 482-508).  The module-level `foods`
list is passed explicitly as `db`. -/
def find_basic_ingredients (db : List FoodRecord) (name : Str)
    (category_groups : Option (List Str) := none) : List FoodRecord :=
  let n := normalize_food_input name
  if n = [] then []
  else
    let acc := db.foldl (resolveStep n category_groups) ([], [], [])
    let all_matches := acc.1 ++ acc.2.1
    if all_matches ≠ [] then all_matches.take 5
    else if acc.2.2 ≠ [] then acc.2.2.take 2
    else []

/-- `load_food_database` (src lines 19-34): on success the json list together
with a name-keyed index; on `FileNotFoundError` the empty database.  The
`Option` argument stands for the outcome of opening `ciqual_2020_foods.json`. -/
def load_food_database (file : Option (List FoodRecord)) :
    List FoodRecord × List (Str × FoodRecord) :=
  match file with
  | some foods =>
      (foods, foods.foldl
        (fun idx f =>
          let key := trim (lowerStr f.name_en)
          idx.filter (fun p => decide (p.1 ≠ key)) ++ [(key, f)]) [])
  | none => ([], [])

/-! ## User profiles, validation, calculator, account creation -/

/-- A user profile as built by `show_user_creation` (src lines 598-601). -/
structure UserProfile where
  name : Str
  age : Int
  gender : Str
  weight : ℚ
  height : Int
  goal : Str
  activity : Str
  created_at : Str
deriving DecidableEq

/-- `validate_user_data` (src lines 410-425): collect one error string per
violated range/enum constraint. -/
def validate_user_data (u : UserProfile) : List Str :=
  (if ¬(15 ≤ u.age ∧ u.age ≤ 100) then ["Age must be between 15-100".data] else []) ++
  (if ¬(30 ≤ u.weight ∧ u.weight ≤ 300) then ["Weight must be between 30-300 kg".data] else []) ++
  (if ¬(100 ≤ u.height ∧ u.height ≤ 250) then ["Height must be between 100-250 cm".data] else []) ++
  (if u.gender ∉ ["male".data, "female".data] then ["Gender must be male or female".data] else []) ++
  (if u.goal ∉ ["lose".data, "maintain".data, "gain".data] then ["Goal must be lose, maintain, or gain".data] else []) ++
  (if u.activity ∉ ["sedentary".data, "light".data, "moderate".data, "active".data, "very active".data]
   then ["Invalid activity level".data] else [])

/-- `calculate_bmr` (src lines 427-434), Mifflin-St Jeor. -/
def calculate_bmr (u : UserProfile) : ℚ :=
  if u.gender = "male".data then
    10 * u.weight + (6.25 : ℚ) * u.height - 5 * u.age + 5
  else
    10 * u.weight + (6.25 : ℚ) * u.height - 5 * u.age - 161

/-- Outcome of a `show_user_creation` form submission: either the form shows
error messages (no user file is written), or `create_new_user` is invoked
with the profile. -/
inductive CreationOutcome where
  | rejected (msgs : List Str)
  | created (username : Str) (profile : UserProfile)
deriving DecidableEq

/-- The decision logic of `show_user_creation` (src lines 582-620): the guard
chain on username/password, the duplicate-user check (`existingUser` models
`load_user_data(username) is not None`), then `validate_user_data`; only when
the error list is empty is `create_new_user` reached (modelled as
`.created`). -/
def show_user_creation (username password confirm : Str) (existingUser : Bool)
    (profile : UserProfile) : CreationOutcome :=
  if username = [] then .rejected ["Username cannot be empty.".data]
  else if password = [] then .rejected ["Password cannot be empty.".data]
  else if password ≠ confirm then .rejected ["Passwords do not match.".data]
  else if password.length < 4 then .rejected ["Password must be at least 4 characters long.".data]
  else if existingUser then .rejected ["Username already exists. Please choose a different one.".data]
  else
    let errors := validate_user_data profile
    if errors ≠ [] then .rejected errors
    else .created username profile

/-! ## Meal parser (modelled from the specification) -/

/-- A parsed ingredient+quantity pair (spec §3). -/
structure ParsedIngredient where
  name : Str
  weight_grams : ℚ
deriving DecidableEq

/-- Digit run to a natural number. -/
def natOfDigits (l : Str) : Nat := l.foldl (fun n c => 10 * n + (c.toNat - '0'.toNat)) 0

/-- Modelled from the spec: anchored match of the quantity pattern of §4.2
step 3 — one or more digits, an optional decimal fraction, optional
whitespace, then `g`/`gram`/`grams` as a whole word, case-insensitive.
Returns the parsed gram value and the length of the matched text. -/
def matchQty (s : Str) : Option (ℚ × Nat) :=
  let ds := s.takeWhile Char.isDigit
  if ds = [] then none
  else
    let r1 := s.drop ds.length
    let fds := match r1 with
      | '.' :: r => r.takeWhile Char.isDigit
      | _ => []
    let fracLen := if fds = [] then 0 else fds.length + 1
    let r2 := r1.drop fracLen
    let wsLen := (r2.takeWhile Char.isWhitespace).length
    let r3 := r2.drop wsLen
    let l3 := lowerStr r3
    let value : ℚ :=
      if fds = [] then (natOfDigits ds : ℚ)
      else ((natOfDigits ds * 10 ^ fds.length + natOfDigits fds : ℕ) : ℚ) / (10 ^ fds.length : ℚ)
    let base := ds.length + fracLen + wsLen
    if startsWith l3 "grams".data && boundaryAfter (r3.drop 5) then some (value, base + 5)
    else if startsWith l3 "gram".data && boundaryAfter (r3.drop 4) then some (value, base + 4)
    else if startsWith l3 "g".data && boundaryAfter (r3.drop 1) then some (value, base + 1)
    else none

/-- Modelled from the spec: left-to-right scan of a segment keeping the first
quantity match as the weight and deleting every quantity match from the text
(§4.2 step 3 and the §4.2 edge-case note).  The `Nat` is a pending skip count
for an occurrence already matched. -/
def scanQtyGo (found : Option ℚ) : Nat → Str → Option ℚ × Str
  | _, [] => (found, [])
  | k + 1, _ :: t => scanQtyGo found k t
  | 0, c :: t =>
    match matchQty (c :: t) with
    | some (v, len) => scanQtyGo (found.orElse (fun _ => some v)) (len - 1) t
    | none =>
      let (r, out) := scanQtyGo found 0 t
      (r, c :: out)

/-- Modelled from the spec: find the first quantity and delete all quantity
occurrences. -/
def scanQty (s : Str) : Option ℚ × Str := scanQtyGo none 0 s

/-- Modelled from the spec: strip one leading connector word (`of`, `with`,
or a hyphen) from the name fragment left after quantity removal (§4.2). -/
def stripConnector (s : Str) : Str :=
  if startsWith s ('o' :: 'f' :: ' ' :: []) then s.drop 3
  else if startsWith s ('w' :: 'i' :: 't' :: 'h' :: ' ' :: []) then s.drop 5
  else if startsWith s ('-' :: []) then s.drop 1
  else s

/-- Modelled from the spec: split the meal text at every comma, plus sign, or
whole word `and` (§4.2 step 1).  The `Bool` tracks whether a word boundary
can sit before the current position; the `Nat` skips the rest of a matched
`and`; `cur` is the reversed current segment. -/
def splitGo : Nat → Bool → Str → Str → List Str
  | _ + 1, _, cur, [] => [cur.reverse]
  | k + 1, _, cur, _ :: t => splitGo k false cur t
  | 0, _, cur, [] => [cur.reverse]
  | 0, b, cur, c :: t =>
    if c == ',' || c == '+' then cur.reverse :: splitGo 0 true [] t
    else if b && startsWith (c :: t) ('a' :: 'n' :: 'd' :: []) && boundaryAfter (t.drop 2) then
      cur.reverse :: splitGo 2 false [] t
    else splitGo 0 (!isWordChar c) (c :: cur) t

/-- Modelled from the spec: the separator split of §4.2 step 1. -/
def splitMeal (s : Str) : List Str := splitGo 0 true [] s

/-- Modelled from the spec: the Meal Parser `parse(meal_text)` of §4.2.  The
meal parser of this repository is not present under `src/` (the spec derives
it from UI drafts outside the provided sources), so it is reconstructed from
the §4.2 algorithm: split into segments, extract the first quantity (default
100 g), delete quantity text, strip a leading connector, normalize, and emit
only non-empty fragments. -/
def parse_meal (meal_text : Str) : List ParsedIngredient :=
  (splitMeal meal_text).filterMap fun seg =>
    let seg := trim seg
    if seg = [] then none
    else
      match scanQty seg with
      | (some w, removed) =>
          let nm := normalize_food_input (stripConnector (trim removed))
          if nm = [] then none else some ⟨nm, w⟩
      | (none, _) =>
          let nm := normalize_food_input seg
          if nm = [] then none else some ⟨nm, (100 : ℚ)⟩

example : parse_meal "150g chicken and 50g rice".data =
    [⟨"chicken".data, 150⟩, ⟨"rice".data, 50⟩] := by decide
example : parse_meal "apple".data = [⟨"apple".data, 100⟩] := by decide
example : parse_meal ",  , ".data = [] := by decide
example : parse_meal "".data = [] := by decide

/-! ## Specification-side predicates for string occurrence -/

/-- `v` is a leading segment of `l`. -/
def PreOf (v l : Str) : Prop := ∃ t, l = v ++ t

/-- `v` is a trailing segment of `l`. -/
def SufOf (v l : Str) : Prop := ∃ t, l = t ++ v

/-- `v` occurs contiguously inside `l`. -/
def InfOf (v l : Str) : Prop := ∃ u t, l = u ++ v ++ t

/-- `v` occurs in `s` delimited by word boundaries: whatever precedes the
occurrence ends in a non-word character (or nothing), and whatever follows
starts with one (or nothing). -/
def OccursWholeWord (v s : Str) : Prop :=
  ∃ pre post, s = pre ++ v ++ post ∧
    (∀ c, pre.getLast? = some c → isWordChar c = false) ∧
    (∀ c, post.head? = some c → isWordChar c = false)

/-- The word-character runs of a string, left to right; `cur` is the reversed
run currently being read. -/
def toksGo (cur : Str) : Str → List Str
  | [] => if cur = [] then [] else [cur.reverse]
  | c :: t =>
    if isWordChar c then toksGo (c :: cur) t
    else (if cur = [] then [] else [cur.reverse]) ++ toksGo [] t

/-- The maximal word-character runs (the `\b`-delimited words) of a string. -/
def tokens (s : Str) : List Str := toksGo [] s

/-- The first character is not whitespace (or the string is empty). -/
def headNotWs : Str → Bool
  | [] => true
  | c :: _ => !c.isWhitespace

/-- Every whitespace character is a single space not followed by more
whitespace: exactly the strings `re.sub(r'\s+', ' ', ·)` leaves unchanged. -/
def spacedOk : Str → Bool
  | [] => true
  | c :: t => (!c.isWhitespace || (c == ' ' && headNotWs t)) && spacedOk t

/-! ## Elementary character and list lemmas -/

theorem ws_not_word {c : Char} (h : c.isWhitespace = true) : isWordChar c = false := by
  simp only [Char.isWhitespace, Bool.or_eq_true, decide_eq_true_eq] at h
  rcases h with ((h | h) | h) | h <;> subst h <;> decide

theorem word_not_ws {c : Char} (h : isWordChar c = true) : c.isWhitespace = false := by
  cases hw : c.isWhitespace with
  | false => rfl
  | true => rw [ws_not_word hw] at h; cases h

theorem mem_takeWhile {p : Char → Bool} : ∀ {l : Str} {c : Char}, c ∈ l.takeWhile p → p c = true := by
  intro l
  induction l with
  | nil => intro c h; simp [List.takeWhile] at h
  | cons a t ih =>
      intro c h
      rw [List.takeWhile_cons] at h
      by_cases hp : p a = true
      · rw [if_pos hp] at h
        rcases List.mem_cons.mp h with rfl | h
        · exact hp
        · exact ih h
      · rw [if_neg hp] at h
        cases h

theorem mem_dropWhile {p : Char → Bool} : ∀ {l : Str} {c : Char}, c ∈ l.dropWhile p → c ∈ l := by
  intro l c h
  exact (List.dropWhile_sublist p).mem h

theorem dropWhile_head {p : Char → Bool} :
    ∀ l : Str, l.dropWhile p = [] ∨ ∃ c t, l.dropWhile p = c :: t ∧ p c = false := by
  intro l
  induction l with
  | nil => left; rfl
  | cons a t ih =>
      rw [List.dropWhile_cons]
      by_cases hp : p a = true
      · rw [if_pos hp]; exact ih
      · right
        exact ⟨a, t, by rw [if_neg hp], by simpa using hp⟩

theorem dropWhile_eq_nil_all {p : Char → Bool} :
    ∀ {l : Str}, l.dropWhile p = [] → ∀ c ∈ l, p c = true := by
  intro l
  induction l with
  | nil => intro _ c hc; cases hc
  | cons a t ih =>
      intro h c hc
      rw [List.dropWhile_cons] at h
      by_cases hp : p a = true
      · rcases List.mem_cons.mp hc with rfl | hc
        · exact hp
        · exact ih (by rwa [if_pos hp] at h) c hc
      · rw [if_neg hp] at h
        cases h

theorem takeWhile_append_all {p : Char → Bool} :
    ∀ {xs : Str} (ys : Str), (∀ c ∈ xs, p c = true) → (xs ++ ys).takeWhile p = xs ++ ys.takeWhile p := by
  intro xs
  induction xs with
  | nil => intro ys _; simp
  | cons a t ih =>
      intro ys h
      have ha : p a = true := h a (by simp)
      rw [List.cons_append, List.takeWhile_cons, if_pos ha, ih ys fun c hc => h c (by simp [hc])]
      rfl

theorem dropWhile_append_all {p : Char → Bool} :
    ∀ {xs : Str} (ys : Str), (∀ c ∈ xs, p c = true) → (xs ++ ys).dropWhile p = ys.dropWhile p := by
  intro xs
  induction xs with
  | nil => intro ys _; simp
  | cons a t ih =>
      intro ys h
      have ha : p a = true := h a (by simp)
      rw [List.cons_append, List.dropWhile_cons, if_pos ha, ih ys fun c hc => h c (by simp [hc])]

theorem takeWhile_nil_of_head {p : Char → Bool} :
    ∀ {ys : Str}, (ys = [] ∨ ∃ c t, ys = c :: t ∧ p c = false) → ys.takeWhile p = [] := by
  intro ys h
  rcases h with h | ⟨c, t, rfl, hc⟩
  · simp [h]
  · rw [List.takeWhile_cons, if_neg (by simp [hc])]

theorem dropWhile_self_of_head {p : Char → Bool} :
    ∀ {ys : Str}, (ys = [] ∨ ∃ c t, ys = c :: t ∧ p c = false) → ys.dropWhile p = ys := by
  intro ys h
  rcases h with h | ⟨c, t, rfl, hc⟩
  · simp [h]
  · rw [List.dropWhile_cons, if_neg (by simp [hc])]

theorem getLast?_cons_ne {c : Char} {l : Str} (h : l ≠ []) : (c :: l).getLast? = l.getLast? := by
  cases l with
  | nil => cases h rfl
  | cons a t => exact List.getLast?_cons_cons

theorem getLast?_append_ne {l₁ l₂ : Str} (h : l₂ ≠ []) : (l₁ ++ l₂).getLast? = l₂.getLast? := by
  induction l₁ with
  | nil => simp
  | cons a t ih =>
      rw [List.cons_append, getLast?_cons_ne (by simp [h]), ih]

/-- Strong induction on string length. -/
theorem strLenInd {P : Str → Prop} (step : ∀ s, (∀ t : Str, t.length < s.length → P t) → P s) :
    ∀ s, P s
  | s => step s (fun t _ => strLenInd step t)
termination_by s => s.length
decreasing_by assumption

theorem startsWith_iff : ∀ {l v : Str}, startsWith l v = true ↔ PreOf v l := by
  intro l v
  induction v generalizing l with
  | nil => simp [startsWith, PreOf]
  | cons a v ih =>
      cases l with
      | nil =>
          simp only [startsWith, PreOf]
          constructor
          · intro h; cases h
          · rintro ⟨t, ht⟩; cases ht
      | cons c l =>
          simp only [startsWith, Bool.and_eq_true, beq_iff_eq, ih, PreOf]
          constructor
          · rintro ⟨rfl, t, rfl⟩; exact ⟨t, rfl⟩
          · rintro ⟨t, ht⟩
            rw [List.cons_append] at ht
            cases ht
            exact ⟨rfl, t, rfl⟩

theorem startsWith_self_append (v t : Str) : startsWith (v ++ t) v = true :=
  startsWith_iff.mpr ⟨t, rfl⟩

theorem containsSub_iff : ∀ {l v : Str}, containsSub l v = true ↔ InfOf v l := by
  intro l v
  induction l with
  | nil =>
      rw [containsSub]
      simp only [Bool.or_eq_true, startsWith_iff]
      constructor
      · rintro (⟨t, ht⟩ | h)
        · exact ⟨[], t, ht⟩
        · cases h
      · rintro ⟨u, t, ht⟩
        rcases List.append_eq_nil.mp ht.symm with ⟨h1, rfl⟩
        rcases List.append_eq_nil.mp h1 with ⟨rfl, rfl⟩
        exact Or.inl ⟨[], rfl⟩
  | cons c l ih =>
      rw [containsSub]
      simp only [Bool.or_eq_true, startsWith_iff, ih]
      constructor
      · rintro (⟨t, ht⟩ | ⟨u, t, ht⟩)
        · exact ⟨[], t, by simp [ht]⟩
        · exact ⟨c :: u, t, by simp [ht]⟩
      · rintro ⟨u, t, ht⟩
        cases u with
        | nil => exact Or.inl ⟨t, by simpa using ht⟩
        | cons d u =>
            rw [List.cons_append, List.cons_append] at ht
            cases ht
            exact Or.inr ⟨u, t, rfl⟩

theorem containsSub_refl (l : Str) : containsSub l l = true :=
  containsSub_iff.mpr ⟨[], [], by simp⟩

theorem endsWith_iff : ∀ {l v : Str}, endsWith l v = true ↔ SufOf v l := by
  intro l v
  rw [endsWith, startsWith_iff]
  constructor
  · rintro ⟨t, ht⟩
    refine ⟨t.reverse, ?_⟩
    have := congrArg List.reverse ht
    simpa [List.reverse_append] using this
  · rintro ⟨t, rfl⟩
    exact ⟨t.reverse, by simp [List.reverse_append]⟩

theorem preOf_infOf {v l : Str} (h : PreOf v l) : InfOf v l := by
  rcases h with ⟨t, rfl⟩; exact ⟨[], t, rfl⟩

theorem sufOf_infOf {v l : Str} (h : SufOf v l) : InfOf v l := by
  rcases h with ⟨t, rfl⟩; exact ⟨t, [], by simp⟩

/-! ## Token structure of strings -/

theorem toksGo_word_append {run : Str} (hrun : ∀ c ∈ run, isWordChar c = true) :
    ∀ (cur rest : Str), toksGo cur (run ++ rest) = toksGo (run.reverse ++ cur) rest := by
  induction run with
  | nil => intro cur rest; simp
  | cons c run ih =>
      intro cur rest
      have hc : isWordChar c = true := hrun c (by simp)
      rw [List.cons_append]
      show toksGo cur (c :: (run ++ rest)) = _
      rw [toksGo, if_pos hc, ih (fun d hd => hrun d (by simp [hd])) (c :: cur) rest]
      congr 1
      simp

theorem tokens_cons_nonword {c : Char} (hc : isWordChar c = false) (t : Str) :
    tokens (c :: t) = tokens t := by
  rw [tokens, toksGo, if_neg (by simp [hc]), if_pos rfl, List.nil_append]
  rfl

theorem tokens_run_append {run rest : Str} (hne : run ≠ [])
    (hrun : ∀ c ∈ run, isWordChar c = true) (hb : boundaryAfter rest = true) :
    tokens (run ++ rest) = run :: tokens rest := by
  rw [tokens, toksGo_word_append hrun [] rest, List.append_nil]
  have hrevne : run.reverse ≠ [] := by simp [hne]
  cases rest with
  | nil =>
      rw [toksGo, if_neg hrevne, List.reverse_reverse]
      rfl
  | cons d t' =>
      have hd : isWordChar d = false := by
        rw [boundaryAfter] at hb
        simpa using hb
      rw [toksGo, if_neg (by simp [hd]), if_neg hrevne, List.reverse_reverse,
        tokens_cons_nonword hd]
      rfl

theorem tokens_all_nonword {sep : Str} (h : ∀ c ∈ sep, isWordChar c = false) :
    tokens sep = [] := by
  induction sep with
  | nil => rfl
  | cons c t ih =>
      rw [tokens_cons_nonword (h c (by simp))]
      exact ih fun d hd => h d (by simp [hd])

theorem tokens_append_left_nonword {pre : Str} (h : ∀ c ∈ pre, isWordChar c = false) :
    ∀ x : Str, tokens (pre ++ x) = tokens x := by
  induction pre with
  | nil => intro x; simp
  | cons c t ih =>
      intro x
      rw [List.cons_append, tokens_cons_nonword (h c (by simp))]
      exact ih (fun d hd => h d (by simp [hd])) x

theorem boundaryAfter_dropWhile_word (t : Str) :
    boundaryAfter (t.dropWhile isWordChar) = true := by
  rcases dropWhile_head t with h | ⟨c, t', heq, hc⟩
  · rw [h]; rfl
  · rw [heq, boundaryAfter]
    simp [hc]

theorem word_head_decomp {c : Char} {t : Str} (hc : isWordChar c = true) :
    c :: t = (c :: t.takeWhile isWordChar) ++ t.dropWhile isWordChar ∧
    (c :: t.takeWhile isWordChar) ≠ [] ∧
    (∀ d ∈ c :: t.takeWhile isWordChar, isWordChar d = true) ∧
    boundaryAfter (t.dropWhile isWordChar) = true := by
  refine ⟨?_, by simp, ?_, boundaryAfter_dropWhile_word t⟩
  · rw [List.cons_append, List.takeWhile_append_dropWhile]
  · intro d hd
    rcases List.mem_cons.mp hd with rfl | hd
    · exact hc
    · exact mem_takeWhile hd

theorem tokens_append_sep {sep : Str} (hsep : ∀ c ∈ sep, isWordChar c = false) :
    ∀ s : Str, tokens (s ++ sep) = tokens s := by
  refine strLenInd ?_
  intro s ih
  cases s with
  | nil => simpa using tokens_all_nonword hsep
  | cons c t =>
      by_cases hc : isWordChar c = true
      · obtain ⟨hsplit, hne, hrun, hb⟩ := word_head_decomp (t := t) hc
        have hbsep : boundaryAfter (t.dropWhile isWordChar ++ sep) = true := by
          rcases dropWhile_head (p := isWordChar) t with h | ⟨d, t', heq, hd⟩
          · rw [h, List.nil_append]
            cases sep with
            | nil => rfl
            | cons e es => simp [boundaryAfter, hsep e (by simp)]
          · rw [heq, List.cons_append, boundaryAfter]
            simp [hd]
        have hlt : (t.dropWhile isWordChar).length < (c :: t).length :=
          Nat.lt_succ_of_le (List.dropWhile_sublist isWordChar (l := t)).length_le
        calc tokens ((c :: t) ++ sep)
            = tokens ((c :: t.takeWhile isWordChar) ++ (t.dropWhile isWordChar ++ sep)) := by
              rw [← List.append_assoc, ← hsplit]
          _ = (c :: t.takeWhile isWordChar) :: tokens (t.dropWhile isWordChar ++ sep) :=
              tokens_run_append hne hrun hbsep
          _ = (c :: t.takeWhile isWordChar) :: tokens (t.dropWhile isWordChar) := by
              rw [ih _ hlt]
          _ = tokens ((c :: t.takeWhile isWordChar) ++ t.dropWhile isWordChar) :=
              (tokens_run_append hne hrun hb).symm
          _ = tokens (c :: t) := by rw [← hsplit]
      · have hc' : isWordChar c = false := by simpa using hc
        rw [List.cons_append, tokens_cons_nonword hc', tokens_cons_nonword hc']
        exact ih t (by simp)

theorem tokens_dropWhile_ws (l : Str) :
    tokens (l.dropWhile Char.isWhitespace) = tokens l := by
  induction l with
  | nil => rfl
  | cons c t ih =>
      rw [List.dropWhile_cons]
      by_cases hc : c.isWhitespace = true
      · rw [if_pos hc, ih, tokens_cons_nonword (ws_not_word hc)]
      · rw [if_neg hc]

theorem trim_decomp (s : Str) : ∃ pre sep : Str,
    (∀ c ∈ pre, c.isWhitespace = true) ∧ (∀ c ∈ sep, c.isWhitespace = true) ∧
    s = pre ++ trim s ++ sep := by
  refine ⟨s.takeWhile Char.isWhitespace,
    ((s.dropWhile Char.isWhitespace).reverse.takeWhile Char.isWhitespace).reverse,
    fun c hc => mem_takeWhile hc,
    fun c hc => mem_takeWhile (List.mem_reverse.mp hc), ?_⟩
  have h1 : s = s.takeWhile Char.isWhitespace ++ s.dropWhile Char.isWhitespace :=
    (List.takeWhile_append_dropWhile _ _).symm
  have h2 := congrArg List.reverse
    (List.takeWhile_append_dropWhile Char.isWhitespace
      (s.dropWhile Char.isWhitespace).reverse).symm
  rw [List.reverse_reverse, List.reverse_append] at h2
  conv_lhs => rw [h1]
  rw [List.append_assoc]
  congr 1

theorem tokens_trim (s : Str) : tokens (trim s) = tokens s := by
  obtain ⟨pre, sep, hpre, hsep, hs⟩ := trim_decomp s
  conv_rhs => rw [hs]
  rw [tokens_append_sep (fun c hc => ws_not_word (hsep c hc)),
    tokens_append_left_nonword (fun c hc => ws_not_word (hpre c hc))]

/-! ## The whitespace collapser and tokens -/

theorem collapseGo_nonws_append {run : Str} (h : ∀ c ∈ run, c.isWhitespace = false)
    (hne : run ≠ []) : ∀ (b : Bool) (rest : Str),
    collapseGo b (run ++ rest) = run ++ collapseGo false rest := by
  induction run with
  | nil => cases hne rfl
  | cons c run ih =>
      intro b rest
      have hc : c.isWhitespace = false := h c (by simp)
      rw [List.cons_append, collapseGo, if_neg (by simp [hc])]
      cases run with
      | nil => simp
      | cons d run' =>
          rw [ih (fun e he => h e (by simp [he])) (by simp) false rest]
          rfl

theorem collapseGo_ws_skip {wsr : Str} (h : ∀ c ∈ wsr, c.isWhitespace = true) :
    ∀ rest : Str, collapseGo true (wsr ++ rest) = collapseGo true rest := by
  induction wsr with
  | nil => intro rest; simp
  | cons c t ih =>
      intro rest
      rw [List.cons_append, collapseGo, if_pos (h c (by simp)), if_pos rfl]
      exact ih (fun d hd => h d (by simp [hd])) rest

theorem collapseGo_true_eq_false {l : Str} (h : headNotWs l = true) :
    collapseGo true l = collapseGo false l := by
  cases l with
  | nil => rfl
  | cons c t =>
      have hc : c.isWhitespace = false := by
        rw [headNotWs] at h; simpa using h
      rw [collapseGo, collapseGo, if_neg (by simp [hc]), if_neg (by simp [hc])]

theorem headNotWs_collapseGo_true : ∀ l : Str, headNotWs (collapseGo true l) = true := by
  intro l
  induction l with
  | nil => rfl
  | cons c t ih =>
      rw [collapseGo]
      by_cases hc : c.isWhitespace = true
      · rw [if_pos hc, if_pos rfl]; exact ih
      · rw [if_neg hc, headNotWs]
        simpa using hc

theorem boundaryAfter_collapseWs {rest : Str} (hb : boundaryAfter rest = true) :
    boundaryAfter (collapseGo false rest) = true := by
  cases rest with
  | nil => rfl
  | cons d t =>
      have hd : isWordChar d = false := by rw [boundaryAfter] at hb; simpa using hb
      rw [collapseGo]
      by_cases hw : d.isWhitespace = true
      · rw [if_pos hw, if_neg (by simp)]
        rfl
      · rw [if_neg hw, boundaryAfter]
        simp [hd]

theorem tokens_collapseWs : ∀ s : Str, tokens (collapseWs s) = tokens s := by
  refine strLenInd ?_
  intro s ih
  cases s with
  | nil => rfl
  | cons c t =>
      by_cases hw : c.isWhitespace = true
      · have hlt : (t.dropWhile Char.isWhitespace).length < (c :: t).length :=
          Nat.lt_succ_of_le (List.dropWhile_sublist Char.isWhitespace (l := t)).length_le
        have hsplit : t = t.takeWhile Char.isWhitespace ++ t.dropWhile Char.isWhitespace :=
          (List.takeWhile_append_dropWhile _ _).symm
        have hhd : headNotWs (t.dropWhile Char.isWhitespace) = true := by
          rcases dropWhile_head (p := Char.isWhitespace) t with h | ⟨d, t', heq, hd⟩
          · rw [h]; rfl
          · rw [heq, headNotWs]; simp [hd]
        calc tokens (collapseWs (c :: t))
            = tokens (' ' :: collapseGo true t) := by
              rw [collapseWs, collapseGo, if_pos hw, if_neg (by simp)]
          _ = tokens (collapseGo true t) := tokens_cons_nonword (by decide) _
          _ = tokens (collapseGo true (t.dropWhile Char.isWhitespace)) := by
              conv_lhs => rw [hsplit]
              rw [collapseGo_ws_skip (fun d hd => mem_takeWhile hd)]
          _ = tokens (collapseWs (t.dropWhile Char.isWhitespace)) := by
              rw [collapseWs, collapseGo_true_eq_false hhd]
          _ = tokens (t.dropWhile Char.isWhitespace) := ih _ hlt
          _ = tokens t := tokens_dropWhile_ws t
          _ = tokens (c :: t) := (tokens_cons_nonword (ws_not_word hw) t).symm
      · have hwf : c.isWhitespace = false := by simpa using hw
        have hstep : collapseWs (c :: t) = c :: collapseWs t := by
          rw [collapseWs, collapseGo, if_neg hw]
          rfl
        by_cases hc : isWordChar c = true
        · obtain ⟨hsplit, hne, hrun, hb⟩ := word_head_decomp (t := t) hc
          have hrunws : ∀ d ∈ c :: t.takeWhile isWordChar, d.isWhitespace = false :=
            fun d hd => word_not_ws (hrun d hd)
          have hlt : (t.dropWhile isWordChar).length < (c :: t).length :=
            Nat.lt_succ_of_le (List.dropWhile_sublist isWordChar (l := t)).length_le
          calc tokens (collapseWs (c :: t))
              = tokens (collapseGo false ((c :: t.takeWhile isWordChar) ++ t.dropWhile isWordChar)) := by
                rw [collapseWs, ← hsplit]
            _ = tokens ((c :: t.takeWhile isWordChar) ++ collapseGo false (t.dropWhile isWordChar)) := by
                rw [collapseGo_nonws_append hrunws hne]
            _ = (c :: t.takeWhile isWordChar) :: tokens (collapseGo false (t.dropWhile isWordChar)) :=
                tokens_run_append hne hrun (boundaryAfter_collapseWs hb)
            _ = (c :: t.takeWhile isWordChar) :: tokens (t.dropWhile isWordChar) := by
                rw [show collapseGo false (t.dropWhile isWordChar) = collapseWs (t.dropWhile isWordChar) from rfl,
                  ih _ hlt]
            _ = tokens ((c :: t.takeWhile isWordChar) ++ t.dropWhile isWordChar) :=
                (tokens_run_append hne hrun hb).symm
            _ = tokens (c :: t) := by rw [← hsplit]
        · have hc' : isWordChar c = false := by simpa using hc
          rw [hstep, tokens_cons_nonword hc', tokens_cons_nonword hc']
          exact ih t (by simp)

/-! ## The word-boundary substitution scanner -/

theorem boundaryAfter_iff {l : Str} :
    boundaryAfter l = true ↔ (l = [] ∨ ∃ c t, l = c :: t ∧ isWordChar c = false) := by
  cases l with
  | nil => simp [boundaryAfter]
  | cons c t =>
      rw [boundaryAfter]
      constructor
      · intro h; exact Or.inr ⟨c, t, rfl, by simpa using h⟩
      · rintro (h | ⟨d, t', heq, hd⟩)
        · cases h
        · cases heq; simp [hd]

theorem reSubGo_skip (a : Char) (w : Str) :
    ∀ (k : Nat) (b : Bool) (s : Str), reSubGo a w (k + 1) b s = reSubGo a w 0 false (s.drop (k + 1)) := by
  intro k
  induction k with
  | zero =>
      intro b s
      cases s with
      | nil => rfl
      | cons c t => simp [reSubGo]
  | succ k ih =>
      intro b s
      cases s with
      | nil => rfl
      | cons c t =>
          show reSubGo a w (k + 1) false t = _
          rw [ih false t]
          rfl

theorem reSubGo_skip_len (a : Char) (w t : Str) :
    reSubGo a w w.length false t = reSubGo a w 0 false (t.drop w.length) := by
  cases w with
  | nil => simp
  | cons x xs => exact reSubGo_skip a (x :: xs) xs.length false t

theorem reSub_false_cons (a : Char) (w : Str) (c : Char) (t : Str) :
    reSubGo a w 0 false (c :: t) = c :: reSubGo a w 0 (!isWordChar c) t := by
  rw [reSubGo, if_neg (by simp)]

theorem startsWith_cons_false {a c : Char} {w t : Str} (hne : a ≠ c) :
    startsWith (c :: t) (a :: w) = false := by
  rw [startsWith]
  simp [hne]

theorem reSub_true_cons_nonword {a : Char} {w : Str} (ha : isWordChar a = true)
    {c : Char} (hc : isWordChar c = false) (t : Str) :
    reSubGo a w 0 true (c :: t) = c :: reSubGo a w 0 true t := by
  have hne : a ≠ c := fun h => by rw [h, hc] at ha; cases ha
  rw [reSubGo, if_neg (by rw [startsWith_cons_false hne]; simp), hc, Bool.not_false]

theorem reSub_false_eq_true {a : Char} {w : Str} (ha : isWordChar a = true)
    {s : Str} (hb : boundaryAfter s = true) :
    reSubGo a w 0 false s = reSubGo a w 0 true s := by
  rcases boundaryAfter_iff.mp hb with rfl | ⟨c, t, rfl, hc⟩
  · rfl
  · rw [reSub_false_cons, reSub_true_cons_nonword ha hc, hc, Bool.not_false]

theorem reSub_false_run {a : Char} {w : Str} {run : Str}
    (hrun : ∀ c ∈ run, isWordChar c = true) :
    ∀ rest : Str, reSubGo a w 0 false (run ++ rest) = run ++ reSubGo a w 0 false rest := by
  induction run with
  | nil => intro rest; simp
  | cons c r ih =>
      intro rest
      rw [List.cons_append, reSub_false_cons, hrun c (by simp), Bool.not_true,
        ih (fun d hd => hrun d (by simp [hd])) rest]
      rfl

theorem reSub_true_match {a : Char} {w : Str} (ha : isWordChar a = true)
    {rest : Str} (hb : boundaryAfter rest = true) :
    reSubGo a w 0 true ((a :: w) ++ rest) = reSubGo a w 0 true rest := by
  rw [List.cons_append, reSubGo, if_pos ?_, reSubGo_skip_len, List.drop_left,
    reSub_false_eq_true ha hb]
  rw [show a :: (w ++ rest) = (a :: w) ++ rest from rfl, startsWith_self_append,
    List.drop_left]
  simp [hb]

theorem reSub_true_run_ne {a : Char} {w : Str} (ha : isWordChar a = true)
    (hw : ∀ c ∈ w, isWordChar c = true)
    {run rest : Str} (hne : run ≠ []) (hrun : ∀ c ∈ run, isWordChar c = true)
    (hb : boundaryAfter rest = true) (hneq : run ≠ a :: w) :
    reSubGo a w 0 true (run ++ rest) = run ++ reSubGo a w 0 true rest := by
  obtain ⟨c, run₁, rfl⟩ : ∃ c r, run = c :: r := by
    cases run with
    | nil => cases hne rfl
    | cons c r => exact ⟨c, r, rfl⟩
  have hcond : (startsWith ((c :: run₁) ++ rest) (a :: w) &&
      boundaryAfter ((run₁ ++ rest).drop w.length)) = false := by
    by_contra hcond
    rw [Bool.not_eq_false, Bool.and_eq_true] at hcond
    obtain ⟨h1, h2⟩ := hcond
    obtain ⟨tl, heq⟩ := startsWith_iff.mp h1
    have htl : tl = ((c :: run₁) ++ rest).drop (a :: w).length := by
      rw [heq, List.drop_left]
    have hbtl : boundaryAfter tl = true := by
      rw [htl]
      simpa using h2
    have hL : ((c :: run₁) ++ rest).takeWhile isWordChar = c :: run₁ := by
      rw [takeWhile_append_all rest hrun,
        takeWhile_nil_of_head (boundaryAfter_iff.mp hb), List.append_nil]
    have hR : ((a :: w) ++ tl).takeWhile isWordChar = a :: w := by
      rw [takeWhile_append_all tl (fun d hd => by
        rcases List.mem_cons.mp hd with rfl | hd
        · exact ha
        · exact hw d hd),
        takeWhile_nil_of_head (boundaryAfter_iff.mp hbtl), List.append_nil]
    rw [heq, hR] at hL
    exact hneq hL.symm
  rw [List.cons_append, reSubGo, if_neg (by rw [Bool.true_and, ← List.cons_append, hcond]; simp),
    hrun c (by simp), Bool.not_true, reSub_false_run (fun d hd => hrun d (by simp [hd])) rest,
    reSub_false_eq_true ha hb]
  rfl

theorem boundaryAfter_reSub {a : Char} {w : Str} (ha : isWordChar a = true)
    {s : Str} (hb : boundaryAfter s = true) :
    boundaryAfter (reSubGo a w 0 true s) = true := by
  rcases boundaryAfter_iff.mp hb with rfl | ⟨c, t, rfl, hc⟩
  · rfl
  · rw [reSub_true_cons_nonword ha hc, boundaryAfter]
    simp [hc]

theorem tokens_reSub {a : Char} {w : Str} (ha : isWordChar a = true)
    (hw : ∀ c ∈ w, isWordChar c = true) :
    ∀ s : Str, tokens (reSubGo a w 0 true s) =
      (tokens s).filter (fun tk => decide (tk ≠ a :: w)) := by
  refine strLenInd ?_
  intro s ih
  cases s with
  | nil => rfl
  | cons c t =>
      by_cases hc : isWordChar c = true
      · obtain ⟨hsplit, hne, hrun, hb⟩ := word_head_decomp (t := t) hc
        have hlt : (t.dropWhile isWordChar).length < (c :: t).length :=
          Nat.lt_succ_of_le (List.dropWhile_sublist isWordChar (l := t)).length_le
        by_cases hrw : c :: t.takeWhile isWordChar = a :: w
        · calc tokens (reSubGo a w 0 true (c :: t))
              = tokens (reSubGo a w 0 true ((a :: w) ++ t.dropWhile isWordChar)) := by
                rw [← hrw, ← hsplit]
            _ = tokens (reSubGo a w 0 true (t.dropWhile isWordChar)) := by
                rw [reSub_true_match ha hb]
            _ = (tokens (t.dropWhile isWordChar)).filter (fun tk => decide (tk ≠ a :: w)) :=
                ih _ hlt
            _ = (tokens (c :: t)).filter (fun tk => decide (tk ≠ a :: w)) := by
                conv_rhs => rw [hsplit, tokens_run_append hne hrun hb]
                rw [List.filter_cons, if_neg (by simp [hrw])]
        · calc tokens (reSubGo a w 0 true (c :: t))
              = tokens ((c :: t.takeWhile isWordChar) ++
                  reSubGo a w 0 true (t.dropWhile isWordChar)) := by
                conv_lhs => rw [hsplit]
                rw [reSub_true_run_ne ha hw hne hrun hb hrw]
            _ = (c :: t.takeWhile isWordChar) ::
                  tokens (reSubGo a w 0 true (t.dropWhile isWordChar)) :=
                tokens_run_append hne hrun (boundaryAfter_reSub ha hb)
            _ = (c :: t.takeWhile isWordChar) ::
                  (tokens (t.dropWhile isWordChar)).filter (fun tk => decide (tk ≠ a :: w)) := by
                rw [ih _ hlt]
            _ = (tokens (c :: t)).filter (fun tk => decide (tk ≠ a :: w)) := by
                conv_rhs => rw [hsplit, tokens_run_append hne hrun hb]
                rw [List.filter_cons, if_pos (by simp [hrw])]
      · have hc' : isWordChar c = false := by simpa using hc
        rw [reSub_true_cons_nonword ha hc', tokens_cons_nonword hc',
          tokens_cons_nonword hc']
        exact ih t (by simp)

theorem reSub_id {a : Char} {w : Str} (ha : isWordChar a = true)
    (hw : ∀ c ∈ w, isWordChar c = true) :
    ∀ s : Str, (a :: w) ∉ tokens s → reSubGo a w 0 true s = s := by
  refine strLenInd ?_
  intro s ih
  cases s with
  | nil => intro _; rfl
  | cons c t =>
      intro hmem
      by_cases hc : isWordChar c = true
      · obtain ⟨hsplit, hne, hrun, hb⟩ := word_head_decomp (t := t) hc
        have hlt : (t.dropWhile isWordChar).length < (c :: t).length :=
          Nat.lt_succ_of_le (List.dropWhile_sublist isWordChar (l := t)).length_le
        rw [hsplit, tokens_run_append hne hrun hb] at hmem
        have hneq : c :: t.takeWhile isWordChar ≠ a :: w :=
          fun h => hmem (h ▸ List.mem_cons_self _ _)
        have hrest : (a :: w) ∉ tokens (t.dropWhile isWordChar) :=
          fun h => hmem (List.mem_cons_of_mem _ h)
        conv_lhs => rw [hsplit]
        rw [reSub_true_run_ne ha hw hne hrun hb hneq, ih _ hlt hrest, ← hsplit]
      · have hc' : isWordChar c = false := by simpa using hc
        rw [tokens_cons_nonword hc'] at hmem
        rw [reSub_true_cons_nonword ha hc', ih t (by simp) hmem]

/-- A usable substitution word: non-empty and made of word characters (every
cooking word is one). -/
def goodWord (wd : Str) : Prop := wd ≠ [] ∧ ∀ c ∈ wd, isWordChar c = true

theorem tokens_reSubAll {wd : Str} (h : goodWord wd) (s : Str) :
    tokens (reSubAll wd s) = (tokens s).filter (fun tk => decide (tk ≠ wd)) := by
  obtain ⟨hne, hword⟩ := h
  cases wd with
  | nil => cases hne rfl
  | cons a w =>
      exact tokens_reSub (hword a (by simp)) (fun c hc => hword c (by simp [hc])) s

theorem reSubAll_id {wd : Str} (h : goodWord wd) {s : Str} (hs : wd ∉ tokens s) :
    reSubAll wd s = s := by
  obtain ⟨hne, hword⟩ := h
  cases wd with
  | nil => cases hne rfl
  | cons a w =>
      exact reSub_id (hword a (by simp)) (fun c hc => hword c (by simp [hc])) s hs

theorem tokens_fold_sub {ws : List Str} (h : ∀ wd ∈ ws, goodWord wd) :
    ∀ (s : Str) (tk : Str),
      tk ∈ tokens (ws.foldl (fun acc wd => reSubAll wd acc) s) → tk ∈ tokens s := by
  induction ws with
  | nil => intro s tk hmem; exact hmem
  | cons wd rest ih =>
      intro s tk hmem
      have h1 := ih (fun v hv => h v (by simp [hv])) (reSubAll wd s) tk hmem
      rw [tokens_reSubAll (h wd (by simp))] at h1
      exact (List.mem_filter.mp h1).1

theorem tokens_fold_not_mem {ws : List Str} (h : ∀ wd ∈ ws, goodWord wd) {v : Str}
    (hv : v ∈ ws) : ∀ s : Str, v ∉ tokens (ws.foldl (fun acc wd => reSubAll wd acc) s) := by
  induction ws with
  | nil => cases hv
  | cons wd rest ih =>
      intro s hmem
      rcases List.mem_cons.mp hv with rfl | hv'
      · have h1 := tokens_fold_sub (fun u hu => h u (by simp [hu])) (reSubAll v s) v hmem
        rw [tokens_reSubAll (h v (by simp))] at h1
        have := (List.mem_filter.mp h1).2
        simp at this
      · exact ih (fun u hu => h u (by simp [hu])) hv' (reSubAll wd s) hmem

theorem fold_reSubAll_id {ws : List Str} (h : ∀ wd ∈ ws, goodWord wd) :
    ∀ s : Str, (∀ wd ∈ ws, wd ∉ tokens s) →
      ws.foldl (fun acc wd => reSubAll wd acc) s = s := by
  induction ws with
  | nil => intro s _; rfl
  | cons wd rest ih =>
      intro s hs
      have h1 : reSubAll wd s = s := reSubAll_id (h wd (by simp)) (hs wd (by simp))
      show rest.foldl (fun acc wd => reSubAll wd acc) (reSubAll wd s) = s
      rw [h1]
      exact ih (fun u hu => h u (by simp [hu])) s (fun u hu => hs u (by simp [hu]))

theorem occurs_mem_tokens {v : Str} (hvne : v ≠ [])
    (hv : ∀ c ∈ v, isWordChar c = true) :
    ∀ s : Str, OccursWholeWord v s → v ∈ tokens s := by
  refine strLenInd ?_
  intro s ih h
  obtain ⟨pre, post, hs, hpre, hpost⟩ := h
  subst hs
  have hbpost : boundaryAfter post = true := by
    cases post with
    | nil => rfl
    | cons d t =>
        rw [boundaryAfter]
        simp [hpost d rfl]
  cases pre with
  | nil =>
      rw [List.nil_append, tokens_run_append hvne hv hbpost]
      exact List.mem_cons_self _ _
  | cons c pre' =>
      by_cases hc : isWordChar c = true
      · have hpre'ne : pre' ≠ [] := by
          intro h0
          subst h0
          exact absurd (hpre c rfl) (by simp [hc])
        have hglpre : (c :: pre').getLast? = pre'.getLast? := getLast?_cons_ne hpre'ne
        have hβne : pre'.dropWhile isWordChar ≠ [] := by
          intro h0
          have hall := dropWhile_eq_nil_all h0
          cases heq : pre'.getLast? with
          | none => exact hpre'ne (List.getLast?_eq_none_iff.mp heq)
          | some d =>
              have hd : d ∈ pre' := List.mem_of_mem_getLast? heq
              have h1 : isWordChar d = false := hpre d (hglpre.trans heq)
              rw [hall d hd] at h1
              cases h1
        have hsplitp : pre' = pre'.takeWhile isWordChar ++ pre'.dropWhile isWordChar :=
          (List.takeWhile_append_dropWhile _ _).symm
        have hrun : ∀ d ∈ c :: pre'.takeWhile isWordChar, isWordChar d = true := by
          intro d hd
          rcases List.mem_cons.mp hd with rfl | hd
          · exact hc
          · exact mem_takeWhile hd
        have hbβ : boundaryAfter ((pre'.dropWhile isWordChar ++ v) ++ post) = true := by
          rcases dropWhile_head (p := isWordChar) pre' with h0 | ⟨d, t', heq, hd⟩
          · cases hβne h0
          · rw [heq, List.cons_append, List.cons_append, boundaryAfter]
            simp [hd]
        have hshape : ((c :: pre') ++ v) ++ post =
            (c :: pre'.takeWhile isWordChar) ++ ((pre'.dropWhile isWordChar ++ v) ++ post) := by
          simp only [List.cons_append, List.append_assoc]
          conv_lhs => rw [hsplitp]
          rw [List.append_assoc]
        have hlt : ((pre'.dropWhile isWordChar ++ v) ++ post).length <
            (((c :: pre') ++ v) ++ post).length := by
          have hlen : (pre'.dropWhile isWordChar).length ≤ pre'.length :=
            (List.dropWhile_sublist isWordChar (l := pre')).length_le
          simp only [List.length_append, List.length_cons]
          omega
        have hocc : OccursWholeWord v ((pre'.dropWhile isWordChar ++ v) ++ post) := by
          refine ⟨pre'.dropWhile isWordChar, post, rfl, ?_, hpost⟩
          intro d hd
          refine hpre d ?_
          rw [hglpre, hsplitp, getLast?_append_ne hβne, hd]
        have hmem := ih _ hlt hocc
        rw [hshape, tokens_run_append (by simp) hrun hbβ]
        exact List.mem_cons_of_mem _ hmem
      · have hc' : isWordChar c = false := by simpa using hc
        have hlt : ((pre' ++ v) ++ post).length < (((c :: pre') ++ v) ++ post).length := by
          simp [List.length_append]
        have hocc : OccursWholeWord v ((pre' ++ v) ++ post) := by
          refine ⟨pre', post, rfl, ?_, hpost⟩
          intro d hd
          cases pre'gl : pre' with
          | nil => rw [pre'gl] at hd; cases hd
          | cons e t =>
              refine hpre d ?_
              rw [getLast?_cons_ne (by simp [pre'gl])]
              exact hd
        have hmem := ih _ hlt hocc
        have hshape : ((c :: pre') ++ v) ++ post = c :: ((pre' ++ v) ++ post) := by
          simp
        rw [hshape, tokens_cons_nonword hc']
        exact hmem

theorem tokens_normalize (text : Str) :
    tokens (normalize_food_input text) =
      tokens (COOKING_WORDS.foldl (fun acc word => reSubAll word acc) (trim (lowerStr text))) := by
  show tokens (trim (collapseWs (COOKING_WORDS.foldl (fun acc word => reSubAll word acc)
    (trim (lowerStr text))))) = _
  rw [tokens_trim, tokens_collapseWs]

theorem cooking_words_good : ∀ wd ∈ COOKING_WORDS, goodWord wd := by
  unfold goodWord
  decide

/-- C4: for every input string and every word of the fixed cooking
vocabulary, the word does not occur word-boundary delimited in the output of
`normalize_food_input`: the `\b`-anchored removals never strip the terms from
inside longer unbroken words, and the splices never leave or create a
standalone cooking word. -/
theorem C4_normalizer_no_cooking_word (text v : Str) (hv : v ∈ COOKING_WORDS) :
    ¬ OccursWholeWord v (normalize_food_input text) := by
  intro hocc
  have hgood := cooking_words_good v hv
  have hmem := occurs_mem_tokens hgood.1 hgood.2 _ hocc
  rw [tokens_normalize] at hmem
  exact tokens_fold_not_mem cooking_words_good hv _ hmem

/-- Witness for C4 at a concrete input. -/
theorem C4_witness :
    "fried".data ∈ COOKING_WORDS ∧
      ¬ OccursWholeWord "fried".data (normalize_food_input "pan fried chicken".data) :=
  ⟨by decide, C4_normalizer_no_cooking_word "pan fried chicken".data "fried".data (by decide)⟩

/-! ## Idempotence of the normalizer -/

theorem toLower_idem (c : Char) : c.toLower.toLower = c.toLower := by
  by_cases h : c.toNat ≥ 65 ∧ c.toNat ≤ 90
  · have h2 : (Char.ofNat (c.toNat + 32)).toNat = c.toNat + 32 := by
      have hv : Nat.isValidChar (c.toNat + 32) := Or.inl (by omega)
      rw [Char.ofNat, dif_pos hv]
      rfl
    have h1 : c.toLower = Char.ofNat (c.toNat + 32) := by
      simp only [Char.toLower]
      rw [if_pos h]
    rw [h1]
    conv_lhs => simp only [Char.toLower]
    rw [h2, if_neg (by omega)]
  · have h1 : c.toLower = c := by
      simp only [Char.toLower]
      rw [if_neg h]
    rw [h1, h1]

theorem mem_reSubGo {a : Char} {w : Str} {c : Char} :
    ∀ {s : Str} {k : Nat} {b : Bool}, c ∈ reSubGo a w k b s → c ∈ s := by
  intro s
  induction s with
  | nil =>
      intro k b h
      cases k with
      | zero => cases h
      | succ k => cases h
  | cons d t ih =>
      intro k b h
      cases k with
      | zero =>
          rw [reSubGo] at h
          split at h
          · exact List.mem_cons_of_mem d (ih h)
          · rcases List.mem_cons.mp h with rfl | h
            · exact List.mem_cons_self _ _
            · exact List.mem_cons_of_mem d (ih h)
      | succ k => exact List.mem_cons_of_mem d (ih h)

theorem mem_reSubAll {wd s : Str} {c : Char} (h : c ∈ reSubAll wd s) : c ∈ s := by
  cases wd with
  | nil => exact h
  | cons a w => exact mem_reSubGo h

theorem mem_fold_reSubAll {ws : List Str} {c : Char} :
    ∀ {s : Str}, c ∈ ws.foldl (fun acc wd => reSubAll wd acc) s → c ∈ s := by
  induction ws with
  | nil => intro s h; exact h
  | cons wd rest ih => intro s h; exact mem_reSubAll (ih h)

theorem mem_collapseGo {c : Char} :
    ∀ {s : Str} {b : Bool}, c ∈ collapseGo b s → c = ' ' ∨ c ∈ s := by
  intro s
  induction s with
  | nil => intro b h; cases h
  | cons d t ih =>
      intro b h
      rw [collapseGo] at h
      split at h
      · split at h
        · rcases ih h with h | h
          · exact Or.inl h
          · exact Or.inr (List.mem_cons_of_mem d h)
        · rcases List.mem_cons.mp h with rfl | h
          · exact Or.inl rfl
          · rcases ih h with h | h
            · exact Or.inl h
            · exact Or.inr (List.mem_cons_of_mem d h)
      · rcases List.mem_cons.mp h with rfl | h
        · exact Or.inr (List.mem_cons_self _ _)
        · rcases ih h with h | h
          · exact Or.inl h
          · exact Or.inr (List.mem_cons_of_mem d h)

theorem mem_trim {c : Char} {s : Str} (h : c ∈ trim s) : c ∈ s := by
  obtain ⟨pre, sep, _, _, hs⟩ := trim_decomp s
  rw [hs]
  simp [h]

theorem map_fix {f : Char → Char} : ∀ {l : Str}, (∀ c ∈ l, f c = c) → l.map f = l := by
  intro l
  induction l with
  | nil => intro _; rfl
  | cons a t ih =>
      intro h
      rw [List.map_cons, h a (by simp), ih fun c hc => h c (by simp [hc])]

theorem lowerStr_normalize_fix (text : Str) :
    lowerStr (normalize_food_input text) = normalize_food_input text := by
  refine map_fix ?_
  intro c hc
  have hc1 : c ∈ collapseWs (COOKING_WORDS.foldl (fun acc word => reSubAll word acc)
      (trim (lowerStr text))) := mem_trim hc
  rcases mem_collapseGo hc1 with rfl | hc2
  · decide
  · have hc3 : c ∈ trim (lowerStr text) := mem_fold_reSubAll hc2
    have hc4 : c ∈ lowerStr text := mem_trim hc3
    obtain ⟨d, _, rfl⟩ := List.mem_map.mp hc4
    exact toLower_idem d

theorem trim_eq_sub (s : Str) : s.dropWhile Char.isWhitespace =
    trim s ++ ((s.dropWhile Char.isWhitespace).reverse.takeWhile Char.isWhitespace).reverse := by
  have h2 := congrArg List.reverse
    (List.takeWhile_append_dropWhile Char.isWhitespace
      (s.dropWhile Char.isWhitespace).reverse).symm
  rw [List.reverse_reverse, List.reverse_append] at h2
  exact h2

theorem trim_head (s : Str) :
    trim s = [] ∨ ∃ c t, trim s = c :: t ∧ c.isWhitespace = false := by
  cases htr : trim s with
  | nil => exact Or.inl rfl
  | cons c t =>
      right
      refine ⟨c, t, rfl, ?_⟩
      have hu := trim_eq_sub s
      rw [htr, List.cons_append] at hu
      rcases dropWhile_head (p := Char.isWhitespace) s with h | ⟨d, t', heq, hd⟩
      · rw [h] at hu; cases hu
      · rw [heq] at hu
        obtain ⟨rfl, -⟩ := List.cons_eq_cons.mp hu
        exact hd

theorem trim_trim (s : Str) : trim (trim s) = trim s := by
  show (((trim s).dropWhile Char.isWhitespace).reverse.dropWhile Char.isWhitespace).reverse = trim s
  rw [dropWhile_self_of_head (trim_head s)]
  have hrev : (trim s).reverse = (s.dropWhile Char.isWhitespace).reverse.dropWhile Char.isWhitespace := by
    rw [trim, List.reverse_reverse]
  rw [hrev, dropWhile_self_of_head (dropWhile_head _), ← hrev, List.reverse_reverse]

theorem collapseWs_of_spacedOk : ∀ {l : Str}, spacedOk l = true → collapseGo false l = l := by
  intro l
  induction l with
  | nil => intro _; rfl
  | cons c t ih =>
      intro h
      rw [spacedOk, Bool.and_eq_true] at h
      obtain ⟨h1, h2⟩ := h
      rw [collapseGo]
      by_cases hws : c.isWhitespace = true
      · have h3 : c = ' ' ∧ headNotWs t = true := by
          rw [hws] at h1
          simpa using h1
        obtain ⟨rfl, hhd⟩ := h3
        rw [if_pos hws]
        simp only [Bool.false_eq_true, if_false]
        rw [collapseGo_true_eq_false hhd, ih h2]
      · rw [if_neg hws, ih h2]

theorem spacedOk_collapseGo : ∀ (l : Str) (b : Bool), spacedOk (collapseGo b l) = true := by
  intro l
  induction l with
  | nil => intro b; rfl
  | cons c t ih =>
      intro b
      rw [collapseGo]
      by_cases hws : c.isWhitespace = true
      · rw [if_pos hws]
        cases b with
        | true => simpa using ih true
        | false =>
            simp only [Bool.false_eq_true, if_false]
            rw [spacedOk, Bool.and_eq_true]
            exact ⟨by simp [headNotWs_collapseGo_true t], ih true⟩
      · rw [if_neg hws, spacedOk, Bool.and_eq_true]
        refine ⟨?_, ih false⟩
        simp [show c.isWhitespace = false by simpa using hws]

theorem spacedOk_of_append_left : ∀ {xs l : Str}, spacedOk (xs ++ l) = true → spacedOk l = true := by
  intro xs
  induction xs with
  | nil => intro l h; exact h
  | cons c t ih =>
      intro l h
      rw [List.cons_append, spacedOk, Bool.and_eq_true] at h
      exact ih h.2

theorem spacedOk_of_append_right : ∀ {l xs : Str}, spacedOk (l ++ xs) = true → spacedOk l = true := by
  intro l
  induction l with
  | nil => intro xs _; rfl
  | cons c t ih =>
      intro xs h
      rw [List.cons_append, spacedOk, Bool.and_eq_true] at h
      obtain ⟨h1, h2⟩ := h
      rw [spacedOk, Bool.and_eq_true]
      refine ⟨?_, ih h2⟩
      rcases Bool.or_eq_true _ _ |>.mp h1 with h1 | h1
      · simp [h1]
      · rw [Bool.and_eq_true] at h1
        obtain ⟨hsp, hhd⟩ := h1
        have hhd' : headNotWs t = true := by
          cases t with
          | nil => rfl
          | cons d t' => simpa [headNotWs] using hhd
        simp [hsp, hhd']

theorem spacedOk_normalize (text : Str) : spacedOk (normalize_food_input text) = true := by
  have hz : spacedOk (collapseWs (COOKING_WORDS.foldl (fun acc word => reSubAll word acc)
      (trim (lowerStr text)))) = true := spacedOk_collapseGo _ false
  obtain ⟨pre, sep, _, _, hs⟩ := trim_decomp (collapseWs (COOKING_WORDS.foldl
    (fun acc word => reSubAll word acc) (trim (lowerStr text))))
  rw [hs] at hz
  exact spacedOk_of_append_left (spacedOk_of_append_right hz)

theorem trim_normalize_fix (text : Str) :
    trim (normalize_food_input text) = normalize_food_input text :=
  trim_trim _

theorem fold_normalize_fix (text : Str) :
    COOKING_WORDS.foldl (fun acc word => reSubAll word acc) (normalize_food_input text) =
      normalize_food_input text := by
  refine fold_reSubAll_id cooking_words_good _ ?_
  intro wd hwd hmem
  rw [tokens_normalize] at hmem
  exact tokens_fold_not_mem cooking_words_good hwd _ hmem

theorem collapseWs_normalize_fix (text : Str) :
    collapseWs (normalize_food_input text) = normalize_food_input text :=
  collapseWs_of_spacedOk (spacedOk_normalize text)

/-- C5: `normalize_food_input` is idempotent. -/
theorem C5_normalize_idem (x : Str) :
    normalize_food_input (normalize_food_input x) = normalize_food_input x := by
  show trim (collapseWs (COOKING_WORDS.foldl (fun acc word => reSubAll word acc)
    (trim (lowerStr (normalize_food_input x))))) = normalize_food_input x
  rw [lowerStr_normalize_fix, trim_normalize_fix, fold_normalize_fix,
    collapseWs_normalize_fix, trim_normalize_fix]

/-! ## Characterization of the resolver loop -/

theorem resolveStep_eq (n : Str) (cat : Option (List Str)) (ex par cx : List FoodRecord)
    (g : FoodRecord) :
    resolveStep n cat (ex, par, cx) g =
      if passCat cat g = true then
        if n = foodNameLower g ∧ is_basic_ingredient g = true then (ex ++ [g], par, cx)
        else if is_basic_ingredient g = true ∧
            (startsWith (foodNameLower g) (n ++ [' ']) = true ∨
             endsWith (foodNameLower g) (' ' :: n) = true) then (ex, par ++ [g], cx)
        else if is_basic_ingredient g = true ∧
            containsSub (' ' :: (foodNameLower g ++ [' '])) (' ' :: (n ++ [' '])) = true then
          (ex, par ++ [g], cx)
        else if ex = [] ∧ par = [] ∧ containsSub (foodNameLower g) n = true then
          (ex, par, cx ++ [g])
        else (ex, par, cx)
      else (ex, par, cx) := rfl

theorem isExactBasic_false_of_not {n : Str} {cat : Option (List Str)} {g : FoodRecord}
    (h : ¬(n = foodNameLower g ∧ is_basic_ingredient g = true)) :
    isExactBasic n cat g = false := by
  rw [Bool.eq_false_iff]
  intro hx
  rw [isExactBasic, Bool.and_eq_true, Bool.and_eq_true] at hx
  exact h ⟨of_decide_eq_true hx.1.2, hx.2⟩

theorem isPartBasic_false_of_not {n : Str} {cat : Option (List Str)} {g : FoodRecord}
    (h2 : ¬(is_basic_ingredient g = true ∧
      (startsWith (foodNameLower g) (n ++ [' ']) = true ∨
       endsWith (foodNameLower g) (' ' :: n) = true)))
    (h3 : ¬(is_basic_ingredient g = true ∧
      containsSub (' ' :: (foodNameLower g ++ [' '])) (' ' :: (n ++ [' '])) = true)) :
    isPartBasic n cat g = false := by
  rw [Bool.eq_false_iff]
  intro hx
  rw [isPartBasic, Bool.and_eq_true, Bool.and_eq_true, Bool.and_eq_true, Bool.or_eq_true,
    Bool.or_eq_true] at hx
  obtain ⟨⟨⟨-, hb⟩, -⟩, hor⟩ := hx
  rcases hor with (h | h) | h
  · exact h2 ⟨hb, Or.inl h⟩
  · exact h2 ⟨hb, Or.inr h⟩
  · exact h3 ⟨hb, h⟩

theorem resolve_foldl (n : Str) (cat : Option (List Str)) :
    ∀ (l : List FoodRecord) (ex par cx : List FoodRecord),
      (l.foldl (resolveStep n cat) (ex, par, cx)).1 = ex ++ l.filter (isExactBasic n cat) ∧
      (l.foldl (resolveStep n cat) (ex, par, cx)).2.1 = par ++ l.filter (isPartBasic n cat) ∧
      (∀ f ∈ (l.foldl (resolveStep n cat) (ex, par, cx)).2.2,
        f ∈ cx ∨ (f ∈ l ∧ complexOnly n cat f = true)) := by
  intro l
  induction l with
  | nil => intro ex par cx; exact ⟨by simp, by simp, fun f hf => Or.inl hf⟩
  | cons g l ih =>
      intro ex par cx
      rw [List.foldl_cons, resolveStep_eq]
      by_cases hpc : passCat cat g = true
      · rw [if_pos hpc]
        by_cases h1 : n = foodNameLower g ∧ is_basic_ingredient g = true
        · -- exact-basic branch
          rw [if_pos h1]
          have hex : isExactBasic n cat g = true := by
            rw [isExactBasic, hpc, h1.2, decide_eq_true_eq.mpr h1.1]
            rfl
          have hpar : isPartBasic n cat g = false := by
            rw [Bool.eq_false_iff]
            intro hx
            rw [isPartBasic, Bool.and_eq_true, Bool.and_eq_true, Bool.and_eq_true] at hx
            rw [h1.1] at hx
            simp at hx
          obtain ⟨ih1, ih2, ih3⟩ := ih (ex ++ [g]) par cx
          refine ⟨?_, ?_, ?_⟩
          · rw [ih1, List.filter_cons, if_pos hex, List.append_assoc]
            rfl
          · rw [ih2, List.filter_cons, if_neg (by rw [hpar]; simp)]
          · intro f hf
            rcases ih3 f hf with hf | ⟨hfl, hco⟩
            · exact Or.inl hf
            · exact Or.inr ⟨List.mem_cons_of_mem g hfl, hco⟩
        · rw [if_neg h1]
          have hex : isExactBasic n cat g = false := isExactBasic_false_of_not h1
          by_cases h2 : is_basic_ingredient g = true ∧
              (startsWith (foodNameLower g) (n ++ [' ']) = true ∨
               endsWith (foodNameLower g) (' ' :: n) = true)
          · -- partial branch (starts/ends)
            rw [if_pos h2]
            have hne : ¬(n = foodNameLower g) := fun he => h1 ⟨he, h2.1⟩
            have hpar : isPartBasic n cat g = true := by
              rw [isPartBasic, hpc, h2.1, decide_eq_false hne]
              rcases h2.2 with h | h
              · rw [h]; rfl
              · rw [h]; simp
            obtain ⟨ih1, ih2, ih3⟩ := ih ex (par ++ [g]) cx
            refine ⟨?_, ?_, ?_⟩
            · rw [ih1, List.filter_cons, if_neg (by rw [hex]; simp)]
            · rw [ih2, List.filter_cons, if_pos hpar, List.append_assoc]
              rfl
            · intro f hf
              rcases ih3 f hf with hf | ⟨hfl, hco⟩
              · exact Or.inl hf
              · exact Or.inr ⟨List.mem_cons_of_mem g hfl, hco⟩
          · rw [if_neg h2]
            by_cases h3 : is_basic_ingredient g = true ∧
                containsSub (' ' :: (foodNameLower g ++ [' '])) (' ' :: (n ++ [' '])) = true
            · -- partial branch (padded substring)
              rw [if_pos h3]
              have hne : ¬(n = foodNameLower g) := fun he => h1 ⟨he, h3.1⟩
              have hpar : isPartBasic n cat g = true := by
                rw [isPartBasic, hpc, h3.1, decide_eq_false hne, h3.2]
                simp
              obtain ⟨ih1, ih2, ih3⟩ := ih ex (par ++ [g]) cx
              refine ⟨?_, ?_, ?_⟩
              · rw [ih1, List.filter_cons, if_neg (by rw [hex]; simp)]
              · rw [ih2, List.filter_cons, if_pos hpar, List.append_assoc]
                rfl
              · intro f hf
                rcases ih3 f hf with hf | ⟨hfl, hco⟩
                · exact Or.inl hf
                · exact Or.inr ⟨List.mem_cons_of_mem g hfl, hco⟩
            · rw [if_neg h3]
              have hpar : isPartBasic n cat g = false := isPartBasic_false_of_not h2 h3
              by_cases h4 : ex = [] ∧ par = [] ∧ containsSub (foodNameLower g) n = true
              · -- complex-fallback branch
                rw [if_pos h4]
                have hco : complexOnly n cat g = true := by
                  rw [complexOnly, hpc, h4.2.2, hex, hpar]
                  rfl
                obtain ⟨ih1, ih2, ih3⟩ := ih ex par (cx ++ [g])
                refine ⟨?_, ?_, ?_⟩
                · rw [ih1, List.filter_cons, if_neg (by rw [hex]; simp)]
                · rw [ih2, List.filter_cons, if_neg (by rw [hpar]; simp)]
                · intro f hf
                  rcases ih3 f hf with hf | ⟨hfl, hcof⟩
                  · rcases List.mem_append.mp hf with hf | hf
                    · exact Or.inl hf
                    · have : f = g := by simpa using hf
                      subst this
                      exact Or.inr ⟨List.mem_cons_self _ _, hco⟩
                  · exact Or.inr ⟨List.mem_cons_of_mem g hfl, hcof⟩
              · -- no-op branch
                rw [if_neg h4]
                obtain ⟨ih1, ih2, ih3⟩ := ih ex par cx
                refine ⟨?_, ?_, ?_⟩
                · rw [ih1, List.filter_cons, if_neg (by rw [hex]; simp)]
                · rw [ih2, List.filter_cons, if_neg (by rw [hpar]; simp)]
                · intro f hf
                  rcases ih3 f hf with hf | ⟨hfl, hco⟩
                  · exact Or.inl hf
                  · exact Or.inr ⟨List.mem_cons_of_mem g hfl, hco⟩
      · rw [if_neg hpc]
        have hpcf : passCat cat g = false := by simpa using hpc
        have hex : isExactBasic n cat g = false := by
          rw [isExactBasic, hpcf]
          rfl
        have hpar : isPartBasic n cat g = false := by
          rw [isPartBasic, hpcf]
          rfl
        obtain ⟨ih1, ih2, ih3⟩ := ih ex par cx
        refine ⟨?_, ?_, ?_⟩
        · rw [ih1, List.filter_cons, if_neg (by rw [hex]; simp)]
        · rw [ih2, List.filter_cons, if_neg (by rw [hpar]; simp)]
        · intro f hf
          rcases ih3 f hf with hf | ⟨hfl, hco⟩
          · exact Or.inl hf
          · exact Or.inr ⟨List.mem_cons_of_mem g hfl, hco⟩

theorem take_of_le_length {l₁ l₂ : Str} {k : Nat} (h : k ≤ l₁.length) :
    (l₁ ++ l₂).take k = l₁.take k := by
  rw [List.take_append_eq_append_take, Nat.sub_eq_zero_of_le h, List.take_zero,
    List.append_nil]

theorem drop_of_le_length {l₁ l₂ : Str} {k : Nat} (h : k ≤ l₁.length) :
    (l₁ ++ l₂).drop k = l₁.drop k ++ l₂ := by
  rw [List.drop_append_eq_append_drop, Nat.sub_eq_zero_of_le h, List.drop_zero]

theorem take_drop_infOf {fn n : Str} {j : Nat} (h : n = (fn.drop j).take n.length) :
    InfOf n fn := by
  refine ⟨fn.take j, (fn.drop j).drop n.length, ?_⟩
  conv_lhs => rw [← List.take_append_drop j fn]
  rw [List.append_assoc]
  congr 1
  conv_lhs => rw [← List.take_append_drop n.length (fn.drop j)]
  rw [← h]

theorem padded_contains {n fn : Str}
    (h : containsSub (' ' :: (fn ++ [' '])) (' ' :: (n ++ [' '])) = true) :
    containsSub fn n = true := by
  rw [containsSub_iff] at h ⊢
  obtain ⟨u, t, heq⟩ := h
  cases u with
  | nil =>
      rw [List.nil_append, List.cons_append] at heq
      obtain ⟨-, heq⟩ := List.cons_eq_cons.mp heq
      have hlen := congrArg List.length heq
      simp only [List.length_append, List.length_cons, List.length_nil] at hlen
      have hle : n.length ≤ fn.length := by omega
      have htake : (fn ++ [' ']).take n.length = ((n ++ [' ']) ++ t).take n.length :=
        congrArg (List.take n.length) heq
      rw [take_of_le_length hle, List.append_assoc, take_of_le_length (by simp)] at htake
      exact take_drop_infOf (j := 0) (by simpa using htake.symm)
  | cons c u' =>
      rw [List.cons_append, List.cons_append] at heq
      obtain ⟨-, heq⟩ := List.cons_eq_cons.mp heq
      have heq2 : fn ++ [' '] = (u' ++ [' ']) ++ (n ++ ([' '] ++ t)) := by
        rw [heq]
        simp [List.append_assoc]
      have hlen := congrArg List.length heq2
      simp only [List.length_append, List.length_cons, List.length_nil] at hlen
      have hj : u'.length + 1 ≤ fn.length := by omega
      have hdropR : ((u' ++ [' ']) ++ (n ++ ([' '] ++ t))).drop (u'.length + 1) =
          n ++ ([' '] ++ t) := by
        rw [show u'.length + 1 = (u' ++ [' ']).length by simp, List.drop_left]
      have hdrop := congrArg (List.drop (u'.length + 1)) heq2
      rw [drop_of_le_length hj, hdropR] at hdrop
      have hbound : n.length ≤ (fn.drop (u'.length + 1)).length := by
        rw [List.length_drop]
        omega
      have htake := congrArg (List.take n.length) hdrop
      rw [take_of_le_length hbound, take_of_le_length (le_refl n.length),
        List.take_length] at htake
      exact take_drop_infOf (j := u'.length + 1) htake.symm

theorem startsWith_pad_contains {n fn : Str}
    (h : startsWith fn (n ++ [' ']) = true) : containsSub fn n = true := by
  rw [containsSub_iff]
  obtain ⟨t, ht⟩ := startsWith_iff.mp h
  exact ⟨[], [' '] ++ t, by rw [ht]; simp⟩

theorem endsWith_pad_contains {n fn : Str}
    (h : endsWith fn (' ' :: n) = true) : containsSub fn n = true := by
  rw [containsSub_iff]
  obtain ⟨t, ht⟩ := endsWith_iff.mp h
  exact ⟨t ++ [' '], [], by rw [ht]; simp⟩

theorem isPartBasic_contains {n : Str} {cat : Option (List Str)} {f : FoodRecord}
    (h : isPartBasic n cat f = true) : containsSub (foodNameLower f) n = true := by
  rw [isPartBasic, Bool.and_eq_true, Bool.and_eq_true, Bool.and_eq_true, Bool.or_eq_true,
    Bool.or_eq_true] at h
  rcases h.2 with (h | h) | h
  · exact startsWith_pad_contains h
  · exact endsWith_pad_contains h
  · exact padded_contains h

theorem isExactBasic_contains {n : Str} {cat : Option (List Str)} {f : FoodRecord}
    (h : isExactBasic n cat f = true) : containsSub (foodNameLower f) n = true := by
  rw [isExactBasic, Bool.and_eq_true, Bool.and_eq_true] at h
  rw [← of_decide_eq_true h.1.2]
  exact containsSub_refl n

theorem find_unfold (db : List FoodRecord) (raw : Str) (cat : Option (List Str))
    (hne : normalize_food_input raw ≠ []) :
    find_basic_ingredients db raw cat =
      (if (db.foldl (resolveStep (normalize_food_input raw) cat) ([], [], [])).1 ++
          (db.foldl (resolveStep (normalize_food_input raw) cat) ([], [], [])).2.1 ≠ [] then
        ((db.foldl (resolveStep (normalize_food_input raw) cat) ([], [], [])).1 ++
          (db.foldl (resolveStep (normalize_food_input raw) cat) ([], [], [])).2.1).take 5
      else if (db.foldl (resolveStep (normalize_food_input raw) cat) ([], [], [])).2.2 ≠ [] then
        ((db.foldl (resolveStep (normalize_food_input raw) cat) ([], [], [])).2.2).take 2
      else []) := by
  simp only [find_basic_ingredients]
  rw [if_neg hne]

theorem find_spec (db : List FoodRecord) (raw : Str) (cat : Option (List Str))
    (hne : normalize_food_input raw ≠ []) :
    (exactBucket db (normalize_food_input raw) cat ++
        partBucket db (normalize_food_input raw) cat ≠ [] →
      find_basic_ingredients db raw cat =
        (exactBucket db (normalize_food_input raw) cat ++
          partBucket db (normalize_food_input raw) cat).take 5) ∧
    (exactBucket db (normalize_food_input raw) cat ++
        partBucket db (normalize_food_input raw) cat = [] →
      ∃ cx : List FoodRecord, find_basic_ingredients db raw cat = cx.take 2 ∧
        ∀ f ∈ cx, f ∈ db ∧ complexOnly (normalize_food_input raw) cat f = true) := by
  obtain ⟨h1, h2, h3⟩ := resolve_foldl (normalize_food_input raw) cat db [] [] []
  rw [List.nil_append] at h1 h2
  simp only [exactBucket, partBucket]
  constructor
  · intro hb
    rw [find_unfold db raw cat hne, h1, h2, if_pos hb]
  · intro hb
    refine ⟨(db.foldl (resolveStep (normalize_food_input raw) cat) ([], [], [])).2.2, ?_, ?_⟩
    · rw [find_unfold db raw cat hne, h1, h2, if_neg (by rw [hb]; simp)]
      by_cases hcx : (db.foldl (resolveStep (normalize_food_input raw) cat) ([], [], [])).2.2 = []
      · rw [if_neg (by rw [hcx]; simp), hcx]
        rfl
      · rw [if_pos hcx]
    · intro f hf
      rcases h3 f hf with hf0 | hgood
      · cases hf0
      · exact hgood

/-- C1: whenever the exact-basic or partial-basic bucket of the resolver is
non-empty (for a query whose normalization is non-empty), the returned
sequence is exactly the concatenation of the two basic buckets truncated to
five — exact matches first — so every returned record is an exact-basic or
partial-basic match and no complex-fallback record is returned. -/
theorem C1_resolver_prefers_basic (db : List FoodRecord) (raw : Str) (cat : Option (List Str))
    (hne : normalize_food_input raw ≠ [])
    (hb : exactBucket db (normalize_food_input raw) cat ++
      partBucket db (normalize_food_input raw) cat ≠ []) :
    find_basic_ingredients db raw cat =
      (exactBucket db (normalize_food_input raw) cat ++
        partBucket db (normalize_food_input raw) cat).take 5 ∧
    ∀ f ∈ find_basic_ingredients db raw cat,
      (isExactBasic (normalize_food_input raw) cat f = true ∨
       isPartBasic (normalize_food_input raw) cat f = true) ∧
      complexOnly (normalize_food_input raw) cat f = false := by
  have heq := (find_spec db raw cat hne).1 hb
  refine ⟨heq, ?_⟩
  intro f hf
  rw [heq] at hf
  have hf2 := List.mem_of_mem_take hf
  have hpred : isExactBasic (normalize_food_input raw) cat f = true ∨
      isPartBasic (normalize_food_input raw) cat f = true := by
    rcases List.mem_append.mp hf2 with hf3 | hf3
    · exact Or.inl (List.mem_filter.mp hf3).2
    · exact Or.inr (List.mem_filter.mp hf3).2
  refine ⟨hpred, ?_⟩
  rcases hpred with hp | hp
  · rw [complexOnly, hp]
    simp
  · rw [complexOnly, hp]
    simp

/-- The basic `chicken breast` record used in concrete witnesses. -/
def chickenBreastRec : FoodRecord :=
  ⟨1, "Chicken breast".data, "meat, egg and fish".data, 120, 22, 0, 3⟩

/-- The composite `chicken casserole` record used in concrete witnesses. -/
def chickenCasseroleRec : FoodRecord :=
  ⟨2, "Chicken casserole".data, "meat, egg and fish".data, 200, 15, 10, 8⟩

/-- Witness for C1: with a basic `chicken breast` and a complex
`chicken casserole` in the database, querying `chicken` returns only the
basic bucket contents. -/
theorem C1_witness :
    normalize_food_input "chicken".data ≠ [] ∧
    exactBucket [chickenBreastRec, chickenCasseroleRec] (normalize_food_input "chicken".data) none ++
      partBucket [chickenBreastRec, chickenCasseroleRec] (normalize_food_input "chicken".data) none ≠ [] ∧
    (find_basic_ingredients [chickenBreastRec, chickenCasseroleRec] "chicken".data none =
      (exactBucket [chickenBreastRec, chickenCasseroleRec] (normalize_food_input "chicken".data) none ++
        partBucket [chickenBreastRec, chickenCasseroleRec] (normalize_food_input "chicken".data) none).take 5 ∧
     ∀ f ∈ find_basic_ingredients [chickenBreastRec, chickenCasseroleRec] "chicken".data none,
       (isExactBasic (normalize_food_input "chicken".data) none f = true ∨
        isPartBasic (normalize_food_input "chicken".data) none f = true) ∧
       complexOnly (normalize_food_input "chicken".data) none f = false) :=
  ⟨by decide, by decide,
   C1_resolver_prefers_basic [chickenBreastRec, chickenCasseroleRec] "chicken".data none
     (by decide) (by decide)⟩

/-- C2: the resolver returns at most 5 records when a basic bucket is
non-empty, at most 2 on the complex fallback, exactly 0 when the normalized
query is empty, and exactly 0 when no record's lowercased display name
contains the normalized query as a substring. -/
theorem C2_result_bounds (db : List FoodRecord) (raw : Str) (cat : Option (List Str)) :
    (exactBucket db (normalize_food_input raw) cat ++
        partBucket db (normalize_food_input raw) cat ≠ [] →
      (find_basic_ingredients db raw cat).length ≤ 5) ∧
    (exactBucket db (normalize_food_input raw) cat ++
        partBucket db (normalize_food_input raw) cat = [] →
      (find_basic_ingredients db raw cat).length ≤ 2) ∧
    (normalize_food_input raw = [] → find_basic_ingredients db raw cat = []) ∧
    ((∀ f ∈ db, containsSub (foodNameLower f) (normalize_food_input raw) = false) →
      find_basic_ingredients db raw cat = []) := by
  have hempty : normalize_food_input raw = [] → find_basic_ingredients db raw cat = [] := by
    intro h
    simp only [find_basic_ingredients]
    rw [if_pos h]
  refine ⟨?_, ?_, hempty, ?_⟩
  · intro hb
    by_cases hne : normalize_food_input raw = []
    · rw [hempty hne]; simp
    · rw [(find_spec db raw cat hne).1 hb]
      exact List.length_take_le 5 _
  · intro hb
    by_cases hne : normalize_food_input raw = []
    · rw [hempty hne]; simp
    · obtain ⟨cx, hcx, -⟩ := (find_spec db raw cat hne).2 hb
      rw [hcx]
      exact List.length_take_le 2 cx
  · intro hsub
    by_cases hne : normalize_food_input raw = []
    · exact hempty hne
    · have hbe : exactBucket db (normalize_food_input raw) cat = [] := by
        rw [exactBucket, List.filter_eq_nil_iff]
        intro f hf hx
        have hc := hsub f hf
        rw [isExactBasic_contains hx] at hc
        cases hc
      have hbp : partBucket db (normalize_food_input raw) cat = [] := by
        rw [partBucket, List.filter_eq_nil_iff]
        intro f hf hx
        have hc := hsub f hf
        rw [isPartBasic_contains hx] at hc
        cases hc
      obtain ⟨cx, hcx, hmem⟩ := (find_spec db raw cat hne).2 (by rw [hbe, hbp]; rfl)
      have hcxe : cx = [] := by
        rw [List.eq_nil_iff_forall_not_mem]
        intro f hf
        obtain ⟨hfdb, hco⟩ := hmem f hf
        rw [complexOnly, Bool.and_eq_true, Bool.and_eq_true, Bool.and_eq_true] at hco
        have hc := hsub f hfdb
        rw [hco.1.1.2] at hc
        cases hc
      rw [hcx, hcxe]
      rfl

/-- Witness for C2 at concrete inputs exercising each of the four cases. -/
theorem C2_witness :
    (find_basic_ingredients [chickenBreastRec] "chicken".data none).length ≤ 5 ∧
    (find_basic_ingredients ([] : List FoodRecord) "chicken".data none).length ≤ 2 ∧
    find_basic_ingredients [chickenBreastRec] "".data none = [] ∧
    find_basic_ingredients [chickenCasseroleRec] "tofu".data none = [] :=
  ⟨(C2_result_bounds [chickenBreastRec] "chicken".data none).1 (by decide),
   (C2_result_bounds [] "chicken".data none).2.1 (by decide),
   (C2_result_bounds [chickenBreastRec] "".data none).2.2.1 (by decide),
   (C2_result_bounds [chickenCasseroleRec] "tofu".data none).2.2.2 (by decide)⟩

/-! ## Remaining claims -/

/-- C3: the Meal Parser (modelled from spec §4.2, absent from `src/`) parses
`"150g chicken and 50g rice"` into exactly the two ingredients
`{name: "chicken", weight: 150.0}` and `{name: "rice", weight: 50.0}`, in
input order. -/
theorem C3_parse_example :
    parse_meal "150g chicken and 50g rice".data =
      [⟨"chicken".data, 150⟩, ⟨"rice".data, 50⟩] := by decide

/-- C6: a record whose lowercased display name contains more than one
distinct main-ingredient term as a substring is never judged basic. -/
theorem C6_multi_main_not_basic (f : FoodRecord)
    (h : 1 < main_ingredients.countP (fun ing => containsSub (foodNameLower f) ing)) :
    is_basic_ingredient f = false := by
  simp only [is_basic_ingredient]
  split
  · rfl
  · exact decide_eq_false (by omega)

/-- The composite `beef rice` record used in concrete witnesses. -/
def beefRiceRec : FoodRecord :=
  ⟨3, "Beef rice".data, "cereals and potatoes".data, 150, 10, 20, 5⟩

/-- Witness for C6: `beef rice` contains two main-ingredient terms and is
judged composite. -/
theorem C6_witness :
    1 < main_ingredients.countP (fun ing => containsSub (foodNameLower beefRiceRec) ing) ∧
    is_basic_ingredient beefRiceRec = false :=
  ⟨by decide, C6_multi_main_not_basic beefRiceRec (by decide)⟩

/-- The valid 70 kg, 175 cm, 25-year-old male profile of the spec's worked
example. -/
def sampleProfile : UserProfile :=
  ⟨"sample".data, 25, "male".data, 70, 175, "maintain".data, "moderate".data, []⟩

/-- C7: on every profile satisfying the §3 invariants, `calculate_bmr` is the
Mifflin-St Jeor formula (`+5` for male, `−161` otherwise), and on the
70 kg / 175 cm / 25-year-old male profile it returns exactly 1673.75. -/
theorem C7_bmr_formula :
    (∀ u : UserProfile, validate_user_data u = [] →
      calculate_bmr u =
        (if u.gender = "male".data
         then 10 * u.weight + (6.25 : ℚ) * u.height - 5 * u.age + 5
         else 10 * u.weight + (6.25 : ℚ) * u.height - 5 * u.age - 161)) ∧
    calculate_bmr sampleProfile = (1673.75 : ℚ) := by
  constructor
  · intro u _
    rfl
  · rw [calculate_bmr, if_pos (show sampleProfile.gender = "male".data from rfl)]
    show (10 : ℚ) * 70 + 6.25 * ((175 : ℤ) : ℚ) - 5 * ((25 : ℤ) : ℚ) + 5 = 1673.75
    norm_num

/-- Witness for C7: the sample profile is valid and gets the male formula. -/
theorem C7_witness :
    validate_user_data sampleProfile = [] ∧
    calculate_bmr sampleProfile =
      (if sampleProfile.gender = "male".data
       then 10 * sampleProfile.weight + (6.25 : ℚ) * sampleProfile.height -
         5 * sampleProfile.age + 5
       else 10 * sampleProfile.weight + (6.25 : ℚ) * sampleProfile.height -
         5 * sampleProfile.age - 161) :=
  ⟨by decide, C7_bmr_formula.1 sampleProfile (by decide)⟩

theorem ite_nil_iff {c : Prop} [Decidable c] {msg : Str} :
    (if c then [msg] else ([] : List Str)) = [] ↔ ¬c := by
  by_cases h : c
  · simp [h]
  · simp [h]

/-- C8: `validate_user_data` returns the empty error list exactly when all
six range/enum constraints hold, and a profile with a non-empty error list is
always rejected by the account-creation flow (no user file written). -/
theorem C8_validation (u : UserProfile) :
    (validate_user_data u = [] ↔
      ((15 ≤ u.age ∧ u.age ≤ 100) ∧ (30 ≤ u.weight ∧ u.weight ≤ 300) ∧
       (100 ≤ u.height ∧ u.height ≤ 250) ∧
       u.gender ∈ ["male".data, "female".data] ∧
       u.goal ∈ ["lose".data, "maintain".data, "gain".data] ∧
       u.activity ∈ ["sedentary".data, "light".data, "moderate".data,
         "active".data, "very active".data])) ∧
    (validate_user_data u ≠ [] → ∀ (username password confirm : Str) (existingUser : Bool),
      ∃ msgs, show_user_creation username password confirm existingUser u = .rejected msgs) := by
  constructor
  · rw [validate_user_data]
    simp only [List.append_eq_nil, ite_nil_iff, not_not]
    tauto
  · intro hval username password confirm existingUser
    simp only [show_user_creation]
    split_ifs with h1 h2 h3 h4 h5
    all_goals exact ⟨_, rfl⟩

/-- An invalid profile (age 10) used in concrete witnesses. -/
def badProfile : UserProfile :=
  ⟨"bad".data, 10, "male".data, 70, 175, "maintain".data, "moderate".data, []⟩

/-- Witness for C8: the age-10 profile fails validation and account creation
rejects it. -/
theorem C8_witness :
    validate_user_data badProfile ≠ [] ∧
    ∃ msgs, show_user_creation "bob".data "pass".data "pass".data false badProfile =
      .rejected msgs :=
  ⟨by decide,
   (C8_validation badProfile).2 (by decide) "bob".data "pass".data "pass".data false⟩

/-- C9: a failed database load yields the empty food collection and the
empty index, and every resolution call against the empty collection returns
the empty sequence. -/
theorem C9_load_failure_empty :
    load_food_database none = ([], []) ∧
    ∀ (raw : Str) (cat : Option (List Str)),
      find_basic_ingredients (load_food_database none).1 raw cat = [] := by
  refine ⟨rfl, ?_⟩
  intro raw cat
  show find_basic_ingredients [] raw cat = []
  by_cases hne : normalize_food_input raw = []
  · simp only [find_basic_ingredients]
    rw [if_pos hne]
  · obtain ⟨cx, hcx, hmem⟩ := (find_spec [] raw cat hne).2 rfl
    have hcxe : cx = [] :=
      List.eq_nil_iff_forall_not_mem.mpr fun f hf => by cases (hmem f hf).1
    rw [hcx, hcxe]
    rfl

/-- C10: `"pasta"` is itself a complex indicator, so every record whose
lowercased name contains `"pasta"` — even a record named just `"pasta"` — is
judged non-basic, and consequently can never belong to the resolver's
exact-basic or partial-basic buckets. -/
theorem C10_pasta_never_basic (f : FoodRecord)
    (h : containsSub (foodNameLower f) "pasta".data = true) :
    is_basic_ingredient f = false ∧
    ∀ (db : List FoodRecord) (n : Str) (cat : Option (List Str)),
      f ∉ exactBucket db n cat ∧ f ∉ partBucket db n cat := by
  have hany : complex_indicators.any (fun ind => containsSub (foodNameLower f) ind) = true :=
    List.any_eq_true.mpr ⟨"pasta".data, by decide, h⟩
  have hb : is_basic_ingredient f = false := by
    simp only [is_basic_ingredient]
    rw [if_pos hany]
  refine ⟨hb, ?_⟩
  intro db n cat
  constructor
  · intro hf
    have hx := (List.mem_filter.mp hf).2
    rw [isExactBasic, Bool.and_eq_true, Bool.and_eq_true] at hx
    have h2 := hx.2
    rw [hb] at h2
    cases h2
  · intro hf
    have hx := (List.mem_filter.mp hf).2
    rw [isPartBasic, Bool.and_eq_true, Bool.and_eq_true, Bool.and_eq_true] at hx
    have h2 := hx.1.1.2
    rw [hb] at h2
    cases h2

/-- A record named exactly `pasta`, used in concrete witnesses. -/
def pastaRec : FoodRecord :=
  ⟨4, "Pasta".data, "cereals and potatoes".data, 350, 12, 70, 2⟩

/-- Witness for C10: the record named `pasta` is judged non-basic and is in
neither basic bucket of a database containing it. -/
theorem C10_witness :
    containsSub (foodNameLower pastaRec) "pasta".data = true ∧
    (is_basic_ingredient pastaRec = false ∧
     ∀ (db : List FoodRecord) (n : Str) (cat : Option (List Str)),
       pastaRec ∉ exactBucket db n cat ∧ pastaRec ∉ partBucket db n cat) :=
  ⟨by decide, C10_pasta_never_basic pastaRec (by decide)⟩
